import Mathlib

/-!
Verification development for the benzene Hex solver core: the 6x7 solver
regression (White wins every Black opening), the inferior-cell engine
(ICEngine.cpp), the DfsSolver interface contract, and the HexBoard
play/undo state machine.

Board model: the 6x7 Hex board has 6 columns (files a..f, White's
direction, West to East) and 7 rows (Black's direction, North to South).
A cell (c, r) with 0 <= c < 6, 0 <= r < 7 is encoded as the bit index
c + 6*r of a Nat bitmask.  Hex adjacency of (c, r): (c+-1, r), (c, r+-1),
(c+1, r-1), (c-1, r+1).
-/

namespace HexGame

/-- Mask of all 42 board cells. -/
def allMask : Nat := 2 ^ 42 - 1

/-- Mask of column 0 (the West edge's neighbours). -/
def col0Mask : Nat := 69810262081

/-- Mask of column 5 (the East edge's neighbours). -/
def col5Mask : Nat := 2233928386592

/-- Cells not in column 0. -/
def notc0 : Nat := allMask ^^^ col0Mask

/-- Cells not in column 5. -/
def notc5 : Nat := allMask ^^^ col5Mask

/-- One step of neighbourhood expansion on a cell bitmask: a cell plus all
its hex neighbours.  Shifts: +1 west-to-east (masked against wrap into
column 0), -1 east-to-west (masked against wrap into column 5), +-6
vertical, -5 = (c+1, r-1), +5 = (c-1, r+1). -/
def expandOne (s : Nat) : Nat :=
  (s ||| ((s <<< 1) &&& notc0) ||| ((s >>> 1) &&& notc5) |||
   ((s <<< 6) &&& allMask) ||| ((s >>> 6) &&& allMask) |||
   ((s >>> 5) &&& notc0) ||| ((s <<< 5) &&& notc5)) &&& allMask

/-- Iterated reachability: expand the reach set `r` inside the stone set
`w` for `n` rounds. -/
def iterReach : Nat → Nat → Nat → Nat
  | 0, r, _ => r
  | n+1, r, w => iterReach n ((expandOne r &&& w) ||| r) w

/-- White's stones `w` contain a West-East connecting chain: the closure of
the column-0 stones inside `w` meets column 5.  42 expansion rounds reach
the closure because each effective round adds at least one of the at most
42 cells. -/
def crossesMask (w : Nat) : Bool :=
  (iterReach 42 (w &&& col0Mask) w) &&& col5Mask ≠ 0

/-! The pairing used by White's second-player strategy on 6x7: cell
(c, r) with r > c is paired with cell (r-1, c).  Pair index k lists
first the six vertical dominoes on the main diagonal band, then the
reflected diagonal pairs. `pairA k` and `pairB k` are the two cells. -/

/-- First cell of pair `k` (the upper-wedge cell). -/
def pairA : Nat → Nat
  | 0 => 0 | 1 => 7 | 2 => 14 | 3 => 21 | 4 => 28 | 5 => 35
  | 6 => 1 | 7 => 8 | 8 => 15 | 9 => 22 | 10 => 29
  | 11 => 2 | 12 => 9 | 13 => 16 | 14 => 23
  | 15 => 3 | 16 => 10 | 17 => 17
  | 18 => 4 | 19 => 11
  | 20 => 5
  | _ => 0

/-- Second cell of pair `k` (the lower-wedge cell). -/
def pairB : Nat → Nat
  | 0 => 6 | 1 => 13 | 2 => 20 | 3 => 27 | 4 => 34 | 5 => 41
  | 6 => 12 | 7 => 19 | 8 => 26 | 9 => 33 | 10 => 40
  | 11 => 18 | 12 => 25 | 13 => 32 | 14 => 39
  | 15 => 24 | 16 => 31 | 17 => 38
  | 18 => 30 | 19 => 37
  | 20 => 36
  | _ => 0

/-- White cell of pair `i` in scenario `j`: bit `i` of `j` chooses side A
or side B. -/
def wchoice (i j : Nat) : Nat :=
  if j.testBit i then 1 <<< pairA i else 1 <<< pairB i

/-- White's stones from the first `k` pairs in scenario `j`. -/
def wAcc : Nat → Nat → Nat
  | 0, _ => 0
  | k+1, j => wAcc k j ||| wchoice k j

/-- White's transversal of the full pairing in scenario `j` (21 bits). -/
def whiteOf (j : Nat) : Nat := wAcc 21 j

/-- Scenario `j` yields a White West-East crossing. -/
def crossesOne (j : Nat) : Bool := crossesMask (whiteOf j)

/-! Packed verification: 2^15 scenarios are laid out in 64-bit slots of a
single Nat and the reachability fixpoint runs on all of them at once.
`ext x j` extracts slot `j`. -/

/-- Extract 64-bit slot `j` of the packed number `x`. -/
def ext (x j : Nat) : Nat := (x >>> (64 * j)) % 2 ^ 64

/-- Replicate the 64-bit pattern `pat` over `2^t` slots by doubling. -/
def repN : Nat → Nat → Nat
  | 0, pat => pat
  | t+1, pat =>
    let x := repN t pat
    x ||| (x <<< (64 <<< t))

/-- Packed White masks for the first `k` pairs: slot `j < 2^k` holds
`wAcc k j`. -/
def packW : Nat → Nat
  | 0 => 0
  | k+1 =>
    let x := packW k
    let lo := x ||| repN k (1 <<< pairB k)
    let hi := x ||| repN k (1 <<< pairA k)
    lo ||| (hi <<< (64 <<< k))

/-- White cells from pairs 15..20 for batch `b`: accumulator over the 6
low bits of `b`, mirroring `wAcc` shifted by 15. -/
def hAcc : Nat → Nat → Nat
  | 0, _ => 0
  | t+1, b => hAcc t b ||| (if b.testBit t then 1 <<< pairA (15+t) else 1 <<< pairB (15+t))

/-- White cells from pairs 15..20, selected by the 6 low bits of the
batch index `b`. -/
def hiMask (b : Nat) : Nat := hAcc 6 b

/-- Packed expansion step, acting on every 64-bit slot at once; the
replicated masks stop bits from leaking across slot boundaries. -/
def pExpand (s rAll rN0 rN5 : Nat) : Nat :=
  (s ||| ((s <<< 1) &&& rN0) ||| ((s >>> 1) &&& rN5) |||
   ((s <<< 6) &&& rAll) ||| ((s >>> 6) &&& rAll) |||
   ((s >>> 5) &&& rN0) ||| ((s <<< 5) &&& rN5)) &&& rAll

/-- Packed reachability iteration. -/
def pIter : Nat → Nat → Nat → Nat → Nat → Nat → Nat
  | 0, r, _, _, _, _ => r
  | n+1, r, w, rAll, rN0, rN5 =>
    pIter n ((pExpand r rAll rN0 rN5 &&& w) ||| r) w rAll rN0 rN5

/-- Packed White transversals for batch `b`: slot `j` holds the White
stones of scenario `b * 2^15 + j`. -/
def pWhite (b : Nat) : Nat := packW 15 ||| repN 15 (hiMask b)

/-- Packed reachability closure for batch `b`. -/
def pReach (b : Nat) : Nat :=
  let w := pWhite b
  pIter 42 (w &&& repN 15 col0Mask) w (repN 15 allMask) (repN 15 notc0) (repN 15 notc5)

/-- Collapse every 42-bit slot of `f` to its bit 0 by an or-fold. -/
def pCollapse (f : Nat) : Nat :=
  let t1 := (f ||| (f >>> 21)) &&& repN 15 (2 ^ 21 - 1)
  let t2 := (t1 ||| (t1 >>> 11)) &&& repN 15 (2 ^ 11 - 1)
  let t3 := (t2 ||| (t2 >>> 6)) &&& repN 15 (2 ^ 6 - 1)
  let t4 := (t3 ||| (t3 >>> 3)) &&& repN 15 (2 ^ 3 - 1)
  let t5 := (t4 ||| (t4 >>> 2)) &&& repN 15 (2 ^ 2 - 1)
  (t5 ||| (t5 >>> 1)) &&& repN 15 1

/-- Check one batch of 2^15 scenarios: every slot of the collapsed
column-5 reach must be 1, i.e. every scenario of the batch crosses. -/
def batchCheck (b : Nat) : Bool :=
  pCollapse (pReach b &&& repN 15 col5Mask) == repN 15 1

/-- Scalar counterpart of the per-slot collapse fold. -/
def collapseOne (v : Nat) : Nat :=
  let t1 := (v ||| (v >>> 21)) &&& (2 ^ 21 - 1)
  let t2 := (t1 ||| (t1 >>> 11)) &&& (2 ^ 11 - 1)
  let t3 := (t2 ||| (t2 >>> 6)) &&& (2 ^ 6 - 1)
  let t4 := (t3 ||| (t3 >>> 3)) &&& (2 ^ 3 - 1)
  let t5 := (t4 ||| (t4 >>> 2)) &&& (2 ^ 2 - 1)
  (t5 ||| (t5 >>> 1)) &&& 1

/-! Spec-modelled game semantics.  The spec fixes the rules of Hex: players
alternate placing stones on empty cells; once the board fills, exactly one
player has a connecting chain, and the solver "returns exact game-theoretic
results".  The winner at a full board is White exactly when White's stones
form a West-East chain. -/

/-- Fold: some cell index below `n` satisfies `f`. -/
def anyCell (f : Nat → Bool) : Nat → Bool
  | 0 => false
  | n+1 => f n || anyCell f n

/-- Fold: every cell index below `n` satisfies `f`. -/
def allCell (f : Nat → Bool) : Nat → Bool
  | 0 => true
  | n+1 => f n && allCell f n

/-- Modelled from the spec: the exact game value of a Hex position on the
6x7 board.  `whiteWins fuel whiteToMove b w` holds when the player White
has a winning strategy from the position with Black stones `b` and White
stones `w`, where `fuel` is the number of empty cells left (the game ends
when the board is full, and White has won exactly when the White stones
connect West to East). -/
def whiteWins : Nat → Bool → Nat → Nat → Bool
  | 0, _, _, w => crossesMask w
  | fuel+1, true, b, w =>
      anyCell (fun m => !(b ||| w).testBit m &&
        whiteWins fuel false b (w ||| (1 <<< m))) 42
  | fuel+1, false, b, w =>
      allCell (fun m => (b ||| w).testBit m ||
        whiteWins fuel true (b ||| (1 <<< m)) w) 42

/-- Modelled from the spec: the solve-state w command of the GTP shell.
After Black's opening stone `o` it runs the solver with White to play and
returns the winner token, which the spec fixes to be the exact
game-theoretic winner.  The DfsSolver implementation itself is not among
the given sources; its spec-level contract (exact result) is modelled.
The `find_permanently_inferior' parameter of the fixture configures a
solver heuristic and does not change the exact value. -/
def solveStateW (o : Nat) : String :=
  if whiteWins 41 true (1 <<< o) 0 then "white" else "black"

/-- Index of the pairing pair containing cell `c`. -/
def pairOfAux : Nat → Nat → Nat
  | 0, _ => 0
  | k+1, c => if pairA k == c || pairB k == c then k else pairOfAux k c

/-- Index of the pairing pair containing cell `c`. -/
def pairOf (c : Nat) : Nat := pairOfAux 21 c

/-- The other cell of the pair containing cell `c`. -/
def partner (c : Nat) : Nat :=
  if pairA (pairOf c) == c then pairB (pairOf c) else pairA (pairOf c)

/-- Black stones of the decided pairs `d` with choice bits `s` (bit k of
`s` set means White holds side A of pair k, so Black holds side B). -/
def bAcc : Nat → Nat → Nat → Nat
  | 0, _, _ => 0
  | k+1, d, s => bAcc k d s |||
      (if d.testBit k then (if s.testBit k then 1 <<< pairB k else 1 <<< pairA k) else 0)

/-- White stones of the decided pairs `d` with choice bits `s`. -/
def wAccD : Nat → Nat → Nat → Nat
  | 0, _, _ => 0
  | k+1, d, s => wAccD k d s |||
      (if d.testBit k then (if s.testBit k then 1 <<< pairA k else 1 <<< pairB k) else 0)

/-- Number of decided pairs among the first `k`. -/
def cnt : Nat → Nat → Nat
  | 0, _ => 0
  | k+1, d => cnt k d + (if d.testBit k then 1 else 0)

/-- Slot confinement: every slot of `x` fits in the 42 board bits. -/
def Conf (x : Nat) : Prop := ∀ j, ext x j < 2 ^ 42


/-! Modelled from the spec: the DFS solver result.  The implementation of
DfsSolver::Solve is not among the given sources; the model follows the
declared contract (DfsSolver.hpp: Result = "player to move wins, player
to move loses, unknown result (timelimit or depth limit reached)";
"Returns WIN/LOSS if color to play wins/loses; otherwise UNKNOWN") and
the spec: limits are "checked at entry to each node; on breach m_aborted
is latched and UNKNOWN is propagated", and a time-limit or user abort
"causes every recursive call to return UNKNOWN on its next entry".  The
search is a negamax over the Hex game model: at a node the children are
explored until one is a loss for the opponent (a winning move), and a
latched UNKNOWN from a child aborts the node. -/

/-- The solver result type (DfsSolver::Result). -/
inductive DRes where
  | win
  | loss
  | unknown
deriving DecidableEq

/-- Negamax combination over the child results of the cells below `n`:
occupied cells are skipped; a child loss makes the node a win; a child
unknown (a latched abort) propagates; otherwise the node is a loss. -/
def dfsFold (f : Nat → DRes) (occ : Nat → Bool) : Nat → DRes
  | 0 => DRes.loss
  | n+1 =>
    if occ n then dfsFold f occ n
    else
      match f n with
      | DRes.loss => DRes.win
      | DRes.unknown => DRes.unknown
      | DRes.win => dfsFold f occ n

/-- Whether a limit fired in the part of the tree the fold explores:
mirrors `dfsFold`, stopping at the same child loss. -/
def firedFold (f : Nat → DRes) (g : Nat → Bool) (occ : Nat → Bool) :
    Nat → Bool
  | 0 => false
  | n+1 =>
    if occ n then firedFold f g occ n
    else if g n then true
    else
      match f n with
      | DRes.loss => false
      | _ => firedFold f g occ n

/-- Depth-limited negamax on the Hex game model: at a full board the
result is exact; a node at depth limit 0 returns UNKNOWN (the depth
limit fires); otherwise the children are combined by `dfsFold`. -/
def negamaxD : Nat → Nat → Bool → Nat → Nat → DRes
  | _, 0, turn, _, w => if crossesMask w == turn then DRes.win else DRes.loss
  | 0, _+1, _, _, _ => DRes.unknown
  | dl+1, fuel+1, turn, b, w =>
      if turn then
        dfsFold (fun m => negamaxD dl fuel false b (w ||| 1 <<< m))
                (fun m => (b ||| w).testBit m) 42
      else
        dfsFold (fun m => negamaxD dl fuel true (b ||| 1 <<< m) w)
                (fun m => (b ||| w).testBit m) 42

/-- Whether the depth limit fired during the search of `negamaxD`. -/
def searchFired : Nat → Nat → Bool → Nat → Nat → Bool
  | _, 0, _, _, _ => false
  | 0, _+1, _, _, _ => true
  | dl+1, fuel+1, turn, b, w =>
      if turn then
        firedFold (fun m => negamaxD dl fuel false b (w ||| 1 <<< m))
                  (fun m => searchFired dl fuel false b (w ||| 1 <<< m))
                  (fun m => (b ||| w).testBit m) 42
      else
        firedFold (fun m => negamaxD dl fuel true (b ||| 1 <<< m) w)
                  (fun m => searchFired dl fuel true (b ||| 1 <<< m) w)
                  (fun m => (b ||| w).testBit m) 42

/-- DfsSolver::Solve: a time limit or user abort (latched before the
search finishes) yields UNKNOWN; otherwise the depth-limited search
runs. -/
def dfsSolve (abort : Bool) (dl fuel : Nat) (turn : Bool) (b w : Nat) : DRes :=
  if abort then DRes.unknown else negamaxD dl fuel turn b w

/-- The colour to play wins the game (exact value from the game model). -/
def toPlayWins (fuel : Nat) (turn : Bool) (b w : Nat) : Bool :=
  whiteWins fuel turn b w == turn

end HexGame

namespace Benzene

/-! Shared bitset kit: `bitset_t` values are embedded as natural numbers,
one bit per board cell. -/

/-- Bitset difference `x - y` (the cells of `x` not in `y`). -/
def mdiff (x y : Nat) : Nat := x ^^^ (x &&& y)

/-- `StoneBoard`: per-colour bitsets for BLACK, WHITE and DEAD plus the
Zobrist hash over (cell, colour) pairs (spec, section 3: "Width, height,
per-color bitsets for {BLACK, WHITE, DEAD}, a Zobrist hash ..."). -/
structure SB where
  black : Nat
  white : Nat
  dead : Nat
  hash : Nat
deriving DecidableEq

/-- All occupied cells of the board. -/
def SB.stones (b : SB) : Nat := b.black ||| b.white ||| b.dead

/-- `StoneBoard::getEmpty`: the cells of the board universe `univ` not
occupied by a stone. -/
def getEmpty (univ : Nat) (b : SB) : Nat := mdiff univ b.stones

/-- The stone colours a cell of the StoneBoard can hold, including the
DEAD pseudo-colour used for dead-cell fillin. -/
inductive HColor where
  | black
  | white
  | deadc
deriving DecidableEq

/-- The player colour `c` (`true` = BLACK) as a stone colour. -/
def toHColor (c : Bool) : HColor := if c then HColor.black else HColor.white

/-- `StoneBoard::addColor`: adds the stones `m` to the bitset of colour
`c`.  The Zobrist hash is untouched (only `playMove` updates the hash;
cf. the HexBoard header: "Does not affect the hash of this state"). -/
def addColor (c : HColor) (m : Nat) (b : SB) : SB :=
  match c with
  | HColor.black => { b with black := b.black ||| m }
  | HColor.white => { b with white := b.white ||| m }
  | HColor.deadc => { b with dead := b.dead ||| m }

/-- `addColor` for a player colour. -/
def addColorP (c : Bool) (m : Nat) (b : SB) : SB := addColor (toHColor c) m b

/-- `StoneBoard::playMove`: plays a single stone of colour `c` on `cell`
and updates the Zobrist hash with the key of the (cell, colour) pair
(the hash is the XOR of the keys of the played stones). -/
def sbPlayMove (key : Bool → Nat → Nat) (c : Bool) (cell : Nat) (b : SB) : SB :=
  { black := if c then b.black ||| 1 <<< cell else b.black
    white := if c then b.white else b.white ||| 1 <<< cell
    dead := b.dead
    hash := b.hash ^^^ key c cell }

/-! Modelled from the spec: the HexBoard history state machine.  The
implementations of HexBoard::PlayMove / PlayStones / UndoMove are not
among the given sources; the model follows the header contracts
(HexBoard.h): PlayMove "Stores old state on stack, plays move to board,
updates ics/vcs.  Hash is modified by the move."; PlayStones "Stores old
state on stack, plays set of stones, updates ics/vcs. HASH IS NOT
MODIFIED! ... this set of moves can be reverted with a single call to
UndoMove()."; UndoMove "Reverts to last state stored on the stack,
restoring all state info.", with the History frame = (StoneBoard,
InferiorCells data, to_play, last_played) as declared in the header.
The InferiorCells payload of a frame is opaque here (a natural number);
its recomputation after a move is an abstract parameter `rec`. -/

/-- One History frame of the HexBoard stack: saved board, inferior-cell
data, colour to play, and last move played. -/
structure HistFrame where
  board : SB
  inf : Nat
  toPlay : Bool
  lastPlayed : Nat
deriving DecidableEq

/-- The HexBoard state: current board, inferior-cell data, colour to
play, last move played, and the history stack. -/
structure HexBd where
  board : SB
  inf : Nat
  toPlay : Bool
  lastPlayed : Nat
  history : List HistFrame
deriving DecidableEq

/-- `HexBoard::PlayMove`: push the old state, play the stone (the hash
is modified by the move), recompute derived data, record the move. -/
def playMove (key : Bool → Nat → Nat) (rec : SB → Bool → Nat) (c : Bool)
    (cell : Nat) (st : HexBd) : HexBd :=
  let b := sbPlayMove key c cell st.board
  { board := b
    inf := rec b (!c)
    toPlay := !c
    lastPlayed := cell
    history := ⟨st.board, st.inf, st.toPlay, st.lastPlayed⟩ :: st.history }

/-- `HexBoard::PlayStones`: push the old state, add the set of stones
without touching the hash, recompute derived data. -/
def playStones (rec : SB → Bool → Nat) (c : Bool) (played : Nat)
    (ctm : Bool) (st : HexBd) : HexBd :=
  let b := addColorP c played st.board
  { board := b
    inf := rec b ctm
    toPlay := ctm
    lastPlayed := st.lastPlayed
    history := ⟨st.board, st.inf, st.toPlay, st.lastPlayed⟩ :: st.history }

/-- `HexBoard::UndoMove`: pop the last frame and restore every stored
field. -/
def undoMove (st : HexBd) : HexBd :=
  match st.history with
  | [] => st
  | f :: t =>
      { board := f.board
        inf := f.inf
        toPlay := f.toPlay
        lastPlayed := f.lastPlayed
        history := t }

/-- The HexBoard operations a move sequence is made of. -/
inductive HBOp where
  | playM (c : Bool) (cell : Nat)
  | undoM

/-- Apply one operation to the HexBoard state. -/
def applyOp (key : Bool → Nat → Nat) (rec : SB → Bool → Nat) :
    HBOp → HexBd → HexBd
  | HBOp.playM c cell => playMove key rec c cell
  | HBOp.undoM => undoMove

/-- Run a sequence of operations left to right. -/
def runOps (key : Bool → Nat → Nat) (rec : SB → Bool → Nat) :
    List HBOp → HexBd → HexBd
  | [], st => st
  | op :: rest, st => runOps key rec rest (applyOp key rec op st)

/-- Sequences of matched PlayMove / UndoMove pairs: empty, concatenation
of two matched sequences, or a PlayMove wrapped around a matched
sequence and closed by its UndoMove. -/
inductive Matched : List HBOp → Prop where
  | nil : Matched []
  | seq {u v : List HBOp} : Matched u → Matched v → Matched (u ++ v)
  | pair (c : Bool) (cell : Nat) {u : List HBOp} :
      Matched u → Matched (HBOp.playM c cell :: u ++ [HBOp.undoM])

/-! Modelled from the spec: `DfsSolverUtil::ShrinkProof`.  Only its
declaration and contract are among the given sources (DfsSolver.hpp:
"Gives all cells outside of the proof to loser, computes fillin using
ice, removes any cell in proof that is filled-in"; spec section 4.7).
Boards are colour-agnostic pairs (loser stones, winner stones); `Φ` is
the ICE fillin function (hypothetical-board fillin as one bitset) and
`V` the outcome predicate "the winner wins this board". -/

/-- The empty cells of a (loser, winner) board. -/
def getEmptyLW (univ l w : Nat) : Nat := mdiff univ (l ||| w)

/-- The hypothetical board of proof shrinking: the loser receives every
empty cell outside the proof `P`. -/
def loserFilled (univ l w P : Nat) : Nat := l ||| mdiff (getEmptyLW univ l w) P

/-- `ShrinkProof`: remove from `P` every cell that ICE fills in on the
hypothetical board. -/
def shrinkProof (Φ : Nat → Nat → Nat) (univ l w P : Nat) : Nat :=
  mdiff P (Φ (loserFilled univ l w P) w)

/-- A proof bitset `P` is valid when the winner still wins after the
loser receives every empty cell outside `P`. -/
def validProof (V : Nat → Nat → Bool) (univ l w P : Nat) : Prop :=
  V (loserFilled univ l w P) w = true

/-! `ICEngine::BackupOpponentDead` (ICEngine.cpp).  For each empty cell
`p` the source rebuilds a board from the black and white stones of the
input board, plays the opponent of the colour to play at `p`, and runs
`ComputeFillin`; that per-move computation is abstracted into
`F8 p = (cells found dead, union of both colours' fillin)`.  The
iteration over the cells, the snapshots of the reversible and dominated
sets taken before the loop, the live test of the vulnerable set, and the
recording of `VulnerableKiller(p, filled - d - p)` follow the source. -/

/-- The vulnerable data of the `InferiorCells` accumulator seen by
`BackupOpponentDead`: the vulnerable cell set, the reversible and
dominated cell sets, and the recorded (cell, killer, carrier) entries. -/
structure VOut where
  vuln : Nat
  reversible : Nat
  dominated : Nat
  entries : List (Nat × Nat × Nat)

/-- `InferiorCells::AddVulnerable`: record cell `d` as vulnerable with
killer `k` and carrier `c`. -/
def addVuln (d k c : Nat) (o : VOut) : VOut :=
  { o with vuln := o.vuln ||| 1 <<< d, entries := (d, k, c) :: o.entries }

/-- Iterate a step over the cells `0 .. k-1` in increasing order (the
BitsetIterator order of the source). -/
def cellFold (step : Nat → VOut → VOut) : Nat → VOut → VOut
  | 0, o => o
  | k+1, o => step k (cellFold step k o)

/-- One step of the inner loop of `BackupOpponentDead` at dead cell
`d`: if `d` is not already vulnerable (live test) nor in the reversible
/ dominated snapshots, record it as vulnerable with killer `p` and
carrier `filled - d - p`. -/
def innerStep (revS domS deadM filled p : Nat) (d : Nat) (o' : VOut) : VOut :=
  if deadM.testBit d && !o'.vuln.testBit d && !revS.testBit d &&
      !domS.testBit d then
    addVuln d p (mdiff (mdiff filled (1 <<< d)) (1 <<< p)) o'
  else o'

/-- The inner loop of `BackupOpponentDead` over the cells found dead
after the opponent move at `p`. -/
def backupInner (k : Nat) (revS domS deadM filled p : Nat) (o : VOut) : VOut :=
  cellFold (innerStep revS domS deadM filled p) k o

/-- One step of the outer loop of `BackupOpponentDead` at cell `p`:
empty cells get the opponent move played and the inner loop run. -/
def outerStep (n : Nat) (empty : Nat) (F8 : Nat → Nat × Nat) (o₀ : VOut)
    (p : Nat) (o : VOut) : VOut :=
  if empty.testBit p then
    backupInner n o₀.reversible o₀.dominated (F8 p).1 (F8 p).2 p o
  else o

/-- `ICEngine::BackupOpponentDead`: run the inner loop for every empty
cell `p`, with the reversible and dominated sets snapshotted from the
accumulator before the loop. -/
def backupOpponentDead (n : Nat) (empty : Nat) (F8 : Nat → Nat × Nat)
    (o₀ : VOut) : VOut :=
  cellFold (outerStep n empty F8 o₀) n o₀

/-! `ICEngine` (ICEngine.cpp).  The pattern- and graph-based cell
finders (FindDead, FindCaptured, FindPermanentlyInferior,
UseGraphTheoryToFindDeadVulnerable, FindVulnerable,
FindPresimplicialPairs, ComputeDeadRegions with FindThreeSetCliques,
FindReversible, FindDominated) match pattern tables that are not among
the given sources; they are abstract parameters (`Finders`) constrained
only by `Sound`: each returns a subset of the cells it is asked to
consider.  The control flow of ComputeDeadCaptured,
FillinPermanentlyInferior, FillInVulnerable, FillInUnreachable,
ComputeFillin and ComputeInferiorCells follows the source: found cells
are recorded in the InferiorCells accumulator and filled into the board
at once.  The integer counts of the source are embedded as bitsets of
the counted cells (a count is zero exactly when its bitset is empty).
Loops carry explicit fuel and return `none` on exhaustion; each is
invoked with fuel `getEmpty univ b + 1`, which is proved sufficient.
Groups and PatternState rebuilds carry no semantic content here. -/

/-- The `InferiorCells` accumulator: fillin sets (dead, captured and
permanently-inferior per colour) and annotation sets (vulnerable,
reversible, dominated).  Modelled from the spec: the class
implementation is not among the given sources; recording fillin removes
the filled cells from the annotation sets, maintaining the spec
invariant "vulnerable/reversible/dominated cells are empty on the
board". -/
structure InfC where
  dead : Nat
  capB : Nat
  capW : Nat
  permB : Nat
  permW : Nat
  vuln : Nat
  reversible : Nat
  dominated : Nat
deriving DecidableEq

/-- `InferiorCells::Clear`. -/
def InfC.clear : InfC := ⟨0, 0, 0, 0, 0, 0, 0, 0⟩

/-- `InferiorCells::AddDead`. -/
def InfC.addDead (m : Nat) (i : InfC) : InfC :=
  { i with
    dead := i.dead ||| m
    vuln := mdiff i.vuln m
    reversible := mdiff i.reversible m
    dominated := mdiff i.dominated m }

/-- `InferiorCells::AddCaptured` (`true` = BLACK). -/
def InfC.addCaptured (c : Bool) (m : Nat) (i : InfC) : InfC :=
  if c then
    { i with
      capB := i.capB ||| m
      vuln := mdiff i.vuln m
      reversible := mdiff i.reversible m
      dominated := mdiff i.dominated m }
  else
    { i with
      capW := i.capW ||| m
      vuln := mdiff i.vuln m
      reversible := mdiff i.reversible m
      dominated := mdiff i.dominated m }

/-- `InferiorCells::AddPermInf` (carriers are not tracked here). -/
def InfC.addPermInf (c : Bool) (m : Nat) (i : InfC) : InfC :=
  if c then
    { i with
      permB := i.permB ||| m
      vuln := mdiff i.vuln m
      reversible := mdiff i.reversible m
      dominated := mdiff i.dominated m }
  else
    { i with
      permW := i.permW ||| m
      vuln := mdiff i.vuln m
      reversible := mdiff i.reversible m
      dominated := mdiff i.dominated m }

/-- `InferiorCells::ClearVulnerable`. -/
def InfC.clearVulnerable (i : InfC) : InfC := { i with vuln := 0 }

/-- `InferiorCells::AddVulnerable` (the cell set; killers are tracked in
the BackupOpponentDead model). -/
def InfC.addVulnerable (m : Nat) (i : InfC) : InfC :=
  { i with vuln := i.vuln ||| m }

/-- `InferiorCells::AddReversible`. -/
def InfC.addReversible (m : Nat) (i : InfC) : InfC :=
  { i with reversible := i.reversible ||| m }

/-- `InferiorCells::AddDominated`. -/
def InfC.addDominated (m : Nat) (i : InfC) : InfC :=
  { i with dominated := i.dominated ||| m }

/-- The abstract cell finders of the engine, as functions of the board
and the set of cells to consider. -/
structure Finders where
  findDead : SB → Nat → Nat
  findCaptured : Bool → SB → Nat → Nat
  findPermInf : Bool → SB → Nat → Nat
  graphDead : Bool → SB → Nat
  graphVuln : Bool → SB → Nat
  findVulnerable : Bool → SB → Nat → Nat
  presimplicial : SB → Nat → Nat
  unreachable : SB → Nat
  findReversible : Bool → SB → Nat → Nat
  findDominated : Bool → SB → Nat → Nat
  backupVuln : Bool → SB → InfC → Nat

/-- Each finder returns a subset of the cells it considers (for the
graph-based ones, of the empty cells of the board it is given; the
presimplicial captures are vulnerable cells). -/
structure Sound (univ : Nat) (F : Finders) : Prop where
  findDead_sub : ∀ b c, F.findDead b c &&& c = F.findDead b c
  findCaptured_sub : ∀ col b c, F.findCaptured col b c &&& c = F.findCaptured col b c
  findPermInf_sub : ∀ col b c, F.findPermInf col b c &&& c = F.findPermInf col b c
  graphDead_sub : ∀ col b, F.graphDead col b &&& getEmpty univ b = F.graphDead col b
  graphVuln_sub : ∀ col b, F.graphVuln col b &&& getEmpty univ b = F.graphVuln col b
  findVulnerable_sub : ∀ col b c, F.findVulnerable col b c &&& c = F.findVulnerable col b c
  presimplicial_sub : ∀ b v, F.presimplicial b v &&& v = F.presimplicial b v
  unreachable_sub : ∀ b, F.unreachable b &&& getEmpty univ b = F.unreachable b
  findReversible_sub : ∀ col b c, F.findReversible col b c &&& c = F.findReversible col b c
  findDominated_sub : ∀ col b c, F.findDominated col b c &&& c = F.findDominated col b c
  backupVuln_sub : ∀ col b i, F.backupVuln col b i &&& getEmpty univ b = F.backupVuln col b i

/-- No finder ever finds anything (the no-simplification case of C9). -/
structure NoFinds (F : Finders) : Prop where
  findDead0 : ∀ b c, F.findDead b c = 0
  findCaptured0 : ∀ col b c, F.findCaptured col b c = 0
  findPermInf0 : ∀ col b c, F.findPermInf col b c = 0
  graphDead0 : ∀ col b, F.graphDead col b = 0
  graphVuln0 : ∀ col b, F.graphVuln col b = 0
  findVulnerable0 : ∀ col b c, F.findVulnerable col b c = 0
  presimplicial0 : ∀ b v, F.presimplicial b v = 0
  unreachable0 : ∀ b, F.unreachable b = 0

/-- The trivial finders: every finder returns the empty set. -/
def zeroFinders : Finders :=
  ⟨fun _ _ => 0, fun _ _ _ => 0, fun _ _ _ => 0, fun _ _ => 0, fun _ _ => 0,
   fun _ _ _ => 0, fun _ _ => 0, fun _ => 0, fun _ _ _ => 0, fun _ _ _ => 0,
   fun _ _ _ => 0⟩

/-- The inner while-loop of `ComputeDeadCaptured`: find dead cells among
the empties, record and fill them, repeat until none are found. -/
def deadLoop (F : Finders) (univ : Nat) :
    Nat → SB → InfC → Nat → Option (SB × InfC × Nat)
  | 0, _, _, _ => none
  | fuel+1, b, i, acc =>
    let dead := F.findDead b (getEmpty univ b)
    if dead = 0 then some (b, i, acc)
    else deadLoop F univ fuel (addColor HColor.deadc dead b) (i.addDead dead)
      (acc ||| dead)

/-- The outer while-loop of `ComputeDeadCaptured`: after the dead loop,
fill black captured cells (and restart) or else white captured cells
(and restart) or else stop. -/
def dcLoop (F : Finders) (univ : Nat) :
    Nat → SB → InfC → Nat → Option (SB × InfC × Nat)
  | 0, _, _, _ => none
  | fuel+1, b, i, acc =>
    match deadLoop F univ (getEmpty univ b + 1) b i acc with
    | none => none
    | some (b1, i1, acc1) =>
      let black := F.findCaptured true b1 (getEmpty univ b1)
      if black ≠ 0 then
        dcLoop F univ fuel (addColorP true black b1)
          (i1.addCaptured true black) (acc1 ||| black)
      else
        let white := F.findCaptured false b1 (getEmpty univ b1)
        if white ≠ 0 then
          dcLoop F univ fuel (addColorP false white b1)
            (i1.addCaptured false white) (acc1 ||| white)
        else some (b1, i1, acc1)

/-- `ICEngine::ComputeDeadCaptured`. -/
def computeDeadCaptured (F : Finders) (univ : Nat) (b : SB) (i : InfC) :
    Option (SB × InfC × Nat) :=
  dcLoop F univ (getEmpty univ b + 1) b i 0

/-- `ICEngine::FillinPermanentlyInferior` (gated by the
find_permanently_inferior parameter). -/
def fillinPermanentlyInferior (F : Finders) (univ : Nat) (flagPerm : Bool)
    (color : Bool) (b : SB) (i : InfC) : SB × InfC × Nat :=
  if flagPerm then
    let perm := F.findPermInf color b (getEmpty univ b)
    if perm ≠ 0 then (addColorP color perm b, i.addPermInf color perm, perm)
    else (b, i, 0)
  else (b, i, 0)

/-- `ICEngine::FillInVulnerable`: clear the vulnerable set, run the
graph-theory dead/vulnerable pass, find vulnerable cells on the empties
minus the dead, and fill the presimplicial captures for the opponent.
Only the captured cells are counted, as in the source. -/
def fillInVulnerable (F : Finders) (univ : Nat) (color : Bool) (b : SB)
    (i : InfC) : SB × InfC × Nat :=
  let i0 := i.clearVulnerable
  let gdead := F.graphDead color b
  let gvuln := F.graphVuln color b
  let i1 := (i0.addVulnerable gvuln).addDead gdead
  let b1 := addColor HColor.deadc gdead b
  let i2 := i1.addVulnerable
    (F.findVulnerable color b1 (mdiff (getEmpty univ b1) i1.dead))
  let captured := F.presimplicial b1 i2.vuln
  if captured ≠ 0 then
    (addColorP (!color) captured b1, i2.addCaptured (!color) captured, captured)
  else (b1, i2, 0)

/-- `ICEngine::FillInUnreachable`. -/
def fillInUnreachable (F : Finders) (univ : Nat) (b : SB) (i : InfC) :
    SB × InfC × Nat :=
  let nr := F.unreachable b
  if nr ≠ 0 then (addColor HColor.deadc nr b, i.addDead nr, nr)
  else (b, i, 0)

/-- The iteration loop of `ComputeFillin`: run all fillin passes and
repeat while the total count is non-zero. -/
def cfLoop (F : Finders) (univ : Nat) (flagPerm flagIter : Bool)
    (color : Bool) : Nat → SB → InfC → Option (SB × InfC)
  | 0, _, _ => none
  | fuel+1, b, i =>
    match computeDeadCaptured F univ b i with
    | none => none
    | some (b1, i1, c1) =>
      let r2 := fillinPermanentlyInferior F univ flagPerm color b1 i1
      let r3 := fillinPermanentlyInferior F univ flagPerm (!color) r2.1 r2.2.1
      let r4 := fillInVulnerable F univ (!color) r3.1 r3.2.1
      let r5 := fillInVulnerable F univ color r4.1 r4.2.1
      let r6 := if flagIter then fillInUnreachable F univ r5.1 r5.2.1
        else (r5.1, r5.2.1, 0)
      if c1 ||| r2.2.2 ||| r3.2.2 ||| r4.2.2 ||| r5.2.2 ||| r6.2.2 = 0 then
        some (r6.1, r6.2.1)
      else cfLoop F univ flagPerm flagIter color fuel r6.1 r6.2.1

/-- `ICEngine::ComputeFillin`: clear the accumulator on entry (the loop
starts from the cleared accumulator whatever `out₀` holds), iterate the
fillin passes to a fixpoint, and if the iterative-dead-regions option is
off run the unreachable pass once at the end. -/
def computeFillin (F : Finders) (univ : Nat) (flagPerm flagIter : Bool)
    (color : Bool) (b : SB) (out₀ : InfC) : Option (SB × InfC) :=
  match cfLoop F univ flagPerm flagIter color (getEmpty univ b + 1) b
      InfC.clear with
  | none => none
  | some (b1, i1) =>
    if flagIter then some (b1, i1)
    else
      let r := fillInUnreachable F univ b1 i1
      some (r.1, r.2.1)

/-- `ICEngine::ComputeInferiorCells`: fillin, then reversible and
dominated on the remaining empties, then optionally the
backup-opponent-dead pass (which reads the board but does not change
it). -/
def computeInferiorCells (F : Finders) (univ : Nat)
    (flagPerm flagIter flagBackup : Bool) (color : Bool) (b : SB)
    (out₀ : InfC) : Option (SB × InfC) :=
  match computeFillin F univ flagPerm flagIter color b out₀ with
  | none => none
  | some (b1, i1) =>
    let i2 := i1.addReversible
      (F.findReversible color b1 (mdiff (getEmpty univ b1) i1.vuln))
    let i3 := i2.addDominated (F.findDominated color b1
      (mdiff (mdiff (getEmpty univ b1) i2.vuln) i2.reversible))
    let i4 := if flagBackup then i3.addVulnerable (F.backupVuln color b1 i3)
      else i3
    some (b1, i4)

/-- The invariants of C3, as maintained through the engine: the fillin
sets are pairwise disjoint and disjoint from the empty cells, and the
annotation sets contain only empty cells. -/
structure Invar (univ : Nat) (b : SB) (i : InfC) : Prop where
  dead_capB : i.dead &&& i.capB = 0
  dead_capW : i.dead &&& i.capW = 0
  capB_capW : i.capB &&& i.capW = 0
  dead_empty : i.dead &&& getEmpty univ b = 0
  capB_empty : i.capB &&& getEmpty univ b = 0
  capW_empty : i.capW &&& getEmpty univ b = 0
  vuln_empty : i.vuln &&& getEmpty univ b = i.vuln
  rev_empty : i.reversible &&& getEmpty univ b = i.reversible
  dom_empty : i.dominated &&& getEmpty univ b = i.dominated


end Benzene

namespace HexGame

/-! Slot extraction lemmas. -/

theorem ext_testBit (x j i : Nat) (hi : i < 64) :
    (ext x j).testBit i = x.testBit (64 * j + i) := by
  unfold ext
  rw [Nat.testBit_mod_two_pow, Nat.testBit_shiftRight]
  simp [hi, Nat.add_comm]

theorem ext_testBit_ge (x j i : Nat) (hi : 64 ≤ i) :
    (ext x j).testBit i = false := by
  apply Nat.testBit_lt_two_pow
  calc ext x j < 2 ^ 64 := Nat.mod_lt _ (by norm_num)
    _ ≤ 2 ^ i := Nat.pow_le_pow_right (by norm_num) hi

theorem ext_lt (x j : Nat) : ext x j < 2 ^ 64 :=
  Nat.mod_lt _ (by norm_num)

theorem ext_lor (x y j : Nat) : ext (x ||| y) j = ext x j ||| ext y j := by
  apply Nat.eq_of_testBit_eq
  intro i
  rcases Nat.lt_or_ge i 64 with hi | hi
  · rw [Nat.testBit_lor, ext_testBit _ _ _ hi, ext_testBit _ _ _ hi,
      ext_testBit _ _ _ hi, Nat.testBit_lor]
  · rw [Nat.testBit_lor, ext_testBit_ge _ _ _ hi, ext_testBit_ge _ _ _ hi,
      ext_testBit_ge _ _ _ hi]
    rfl

theorem ext_land (x y j : Nat) : ext (x &&& y) j = ext x j &&& ext y j := by
  apply Nat.eq_of_testBit_eq
  intro i
  rcases Nat.lt_or_ge i 64 with hi | hi
  · rw [Nat.testBit_land, ext_testBit _ _ _ hi, ext_testBit _ _ _ hi,
      ext_testBit _ _ _ hi, Nat.testBit_land]
  · rw [Nat.testBit_land, ext_testBit_ge _ _ _ hi, ext_testBit_ge _ _ _ hi,
      ext_testBit_ge _ _ _ hi]
    rfl

theorem ext_zero (j : Nat) : ext 0 j = 0 := by
  unfold ext
  simp

theorem ext_shiftLeft_small (x j k : Nat) (hx : Conf x) (hk : k ≤ 6) :
    ext (x <<< k) j = ext x j <<< k := by
  apply Nat.eq_of_testBit_eq
  intro i
  rcases Nat.lt_or_ge i 64 with hi | hi
  · rw [ext_testBit _ _ _ hi, Nat.testBit_shiftLeft, Nat.testBit_shiftLeft]
    rcases Nat.lt_or_ge i k with hik | hik
    · have h1 : decide (i ≥ k) = false := by simp; omega
      rw [h1]
      cases j with
      | zero =>
        have h2 : decide (64 * 0 + i ≥ k) = false := by simp; omega
        rw [h2]
        simp
      | succ j' =>
        have h2 : decide (64 * (j' + 1) + i ≥ k) = true := by simp; omega
        rw [h2]
        have h3 : 64 * (j' + 1) + i - k = 64 * j' + (64 + i - k) := by omega
        have h4 : 64 + i - k < 64 := by omega
        rw [h3, ← ext_testBit _ _ _ h4]
        simp only [Bool.true_and]
        apply Nat.testBit_lt_two_pow
        calc ext x j' < 2 ^ 42 := hx j'
          _ ≤ 2 ^ (64 + i - k) := Nat.pow_le_pow_right (by norm_num) (by omega)
    · have h1 : decide (i ≥ k) = true := by simp; omega
      have h2 : decide (64 * j + i ≥ k) = true := by simp; omega
      have h3 : 64 * j + i - k = 64 * j + (i - k) := by omega
      have h4 : i - k < 64 := by omega
      rw [h1, h2, h3, ← ext_testBit _ _ _ h4]
  · rw [ext_testBit_ge _ _ _ hi]
    symm
    apply Nat.testBit_lt_two_pow
    calc ext x j <<< k = ext x j * 2 ^ k := Nat.shiftLeft_eq _ _
      _ < 2 ^ 42 * 2 ^ k := by
          exact Nat.mul_lt_mul_of_lt_of_le (hx j) (Nat.le_refl _) (by positivity)
      _ = 2 ^ (42 + k) := by rw [Nat.pow_add]
      _ ≤ 2 ^ i := Nat.pow_le_pow_right (by norm_num) (by omega)

theorem ext_shiftRight_land (x m j k : Nat) (hm : ext m j < 2 ^ (64 - k))
    (hk : k ≤ 64) :
    ext ((x >>> k) &&& m) j = (ext x j >>> k) &&& ext m j := by
  apply Nat.eq_of_testBit_eq
  intro i
  rcases Nat.lt_or_ge i 64 with hi | hi
  · rw [ext_testBit _ _ _ hi, Nat.testBit_land, Nat.testBit_land,
      Nat.testBit_shiftRight, Nat.testBit_shiftRight,
      ← ext_testBit _ _ _ hi]
    rcases Nat.lt_or_ge (k + i) 64 with hki | hki
    · have h3 : k + (64 * j + i) = 64 * j + (k + i) := by omega
      rw [h3, ← ext_testBit _ _ _ hki]
    · have h4 : (ext x j).testBit (k + i) = false := by
        rcases Nat.lt_or_ge (k + i) 64 with h | h
        · omega
        · exact ext_testBit_ge _ _ _ h
      have h5 : (ext m j).testBit i = false := by
        apply Nat.testBit_lt_two_pow
        calc ext m j < 2 ^ (64 - k) := hm
          _ ≤ 2 ^ i := Nat.pow_le_pow_right (by norm_num) (by omega)
      rw [h4, h5]
      simp
  · rw [ext_testBit_ge _ _ _ hi, Nat.testBit_land, ext_testBit_ge _ _ _ hi]
    simp

theorem ext_shiftLeft_slots (x m j : Nat) :
    ext (x <<< (64 * m)) j = if j < m then 0 else ext x (j - m) := by
  apply Nat.eq_of_testBit_eq
  intro i
  rcases Nat.lt_or_ge i 64 with hi | hi
  · rw [ext_testBit _ _ _ hi, Nat.testBit_shiftLeft]
    split
    · next h =>
        have h2 : decide (64 * j + i ≥ 64 * m) = false := by simp; omega
        rw [h2]
        simp
    · next h =>
        have h2 : decide (64 * j + i ≥ 64 * m) = true := by simp; omega
        have h3 : 64 * j + i - 64 * m = 64 * (j - m) + i := by omega
        rw [h2, h3, ← ext_testBit _ _ _ hi]
        simp
  · rw [ext_testBit_ge _ _ _ hi]
    split
    · simp
    · rw [ext_testBit_ge _ _ _ hi]

theorem ext_big_zero (x m j : Nat) (h : x < 2 ^ (64 * m)) (hj : m ≤ j) :
    ext x j = 0 := by
  unfold ext
  have h1 : x >>> (64 * j) = 0 := by
    rw [Nat.shiftRight_eq_div_pow]
    apply Nat.div_eq_of_lt
    calc x < 2 ^ (64 * m) := h
      _ ≤ 2 ^ (64 * j) := Nat.pow_le_pow_right (by norm_num) (by omega)
  rw [h1]
  simp

theorem shiftLeft_64_eq (t : Nat) : (64 <<< t) = 64 * 2 ^ t := by
  rw [Nat.shiftLeft_eq]

theorem repN_lt (t pat : Nat) (h : pat < 2 ^ 64) :
    repN t pat < 2 ^ (64 * 2 ^ t) := by
  induction t with
  | zero => simpa using h
  | succ t ih =>
    show repN t pat ||| (repN t pat <<< (64 <<< t)) < _
    apply Nat.or_lt_two_pow
    · calc repN t pat < 2 ^ (64 * 2 ^ t) := ih
        _ ≤ 2 ^ (64 * 2 ^ (t + 1)) := by
            apply Nat.pow_le_pow_right (by norm_num)
            have : 2 ^ t ≤ 2 ^ (t + 1) := Nat.pow_le_pow_right (by norm_num) (by omega)
            omega
    · rw [shiftLeft_64_eq, Nat.shiftLeft_eq]
      calc repN t pat * 2 ^ (64 * 2 ^ t)
          < 2 ^ (64 * 2 ^ t) * 2 ^ (64 * 2 ^ t) := by
            apply Nat.mul_lt_mul_of_lt_of_le ih (Nat.le_refl _) (by positivity)
        _ = 2 ^ (64 * 2 ^ t + 64 * 2 ^ t) := by rw [Nat.pow_add]
        _ ≤ 2 ^ (64 * 2 ^ (t + 1)) := by
            apply Nat.pow_le_pow_right (by norm_num)
            have : 2 ^ (t + 1) = 2 * 2 ^ t := by ring
            omega

theorem ext_repN (t pat j : Nat) (h : pat < 2 ^ 64) :
    ext (repN t pat) j = if j < 2 ^ t then pat else 0 := by
  induction t generalizing j with
  | zero =>
    rcases Nat.lt_or_ge j 1 with hj | hj
    · interval_cases j
      show ext pat 0 = _
      unfold ext
      simp only [Nat.mul_zero, Nat.shiftRight_zero, if_pos (by omega : (0:Nat) < 1)]
      exact Nat.mod_eq_of_lt h
    · rw [if_neg (by omega)]
      exact ext_big_zero _ 1 _ (by simpa using h) hj
  | succ t ih =>
    have hp : 2 ^ (t + 1) = 2 ^ t + 2 ^ t := by ring
    show ext (repN t pat ||| (repN t pat <<< (64 <<< t))) j = _
    rw [ext_lor, shiftLeft_64_eq, ext_shiftLeft_slots, ih]
    rcases Nat.lt_or_ge j (2 ^ t) with hj | hj
    · rw [if_pos hj, if_pos hj, if_pos (by omega)]
      simp
    · rw [if_neg (by omega), if_neg (by omega), ih]
      rcases Nat.lt_or_ge j (2 ^ (t + 1)) with hj2 | hj2
      · rw [if_pos (by omega), if_pos hj2]
        simp
      · rw [if_neg (by omega), if_neg (by omega)]
        simp

theorem pairA_lt (k : Nat) : pairA k < 42 := by
  unfold pairA
  split <;> norm_num

theorem pairB_lt (k : Nat) : pairB k < 42 := by
  unfold pairB
  split <;> norm_num

theorem one_shiftLeft_lt (c : Nat) (h : c < 42) : (1 <<< c) < 2 ^ 42 := by
  rw [Nat.one_shiftLeft]
  exact Nat.pow_lt_pow_right (by norm_num) h

theorem wchoice_lt (i j : Nat) : wchoice i j < 2 ^ 42 := by
  unfold wchoice
  split
  · exact one_shiftLeft_lt _ (pairA_lt i)
  · exact one_shiftLeft_lt _ (pairB_lt i)

theorem wAcc_lt (k j : Nat) : wAcc k j < 2 ^ 42 := by
  induction k with
  | zero => show 0 < _; positivity
  | succ k ih =>
    show wAcc k j ||| wchoice k j < _
    exact Nat.or_lt_two_pow ih (wchoice_lt k j)

theorem wAcc_congr (k j₁ j₂ : Nat) (h : ∀ i, i < k → j₁.testBit i = j₂.testBit i) :
    wAcc k j₁ = wAcc k j₂ := by
  induction k with
  | zero => rfl
  | succ k ih =>
    show wAcc k j₁ ||| wchoice k j₁ = wAcc k j₂ ||| wchoice k j₂
    rw [ih (fun i hi => h i (by omega))]
    unfold wchoice
    rw [h k (by omega)]

theorem packW_lt (k : Nat) : packW k < 2 ^ (64 * 2 ^ k) := by
  induction k with
  | zero => show 0 < _; positivity
  | succ k ih =>
    have hb : (1 <<< pairB k) < 2 ^ 64 :=
      lt_of_lt_of_le (one_shiftLeft_lt _ (pairB_lt k)) (by norm_num)
    have ha : (1 <<< pairA k) < 2 ^ 64 :=
      lt_of_lt_of_le (one_shiftLeft_lt _ (pairA_lt k)) (by norm_num)
    have hmono : (2 : Nat) ^ (64 * 2 ^ k) ≤ 2 ^ (64 * 2 ^ (k + 1)) := by
      apply Nat.pow_le_pow_right (by norm_num)
      have : 2 ^ (k + 1) = 2 * 2 ^ k := by ring
      omega
    have hlo : packW k ||| repN k (1 <<< pairB k) < 2 ^ (64 * 2 ^ k) :=
      Nat.or_lt_two_pow ih (repN_lt _ _ hb)
    have hhi : packW k ||| repN k (1 <<< pairA k) < 2 ^ (64 * 2 ^ k) :=
      Nat.or_lt_two_pow ih (repN_lt _ _ ha)
    show (packW k ||| repN k (1 <<< pairB k)) |||
        ((packW k ||| repN k (1 <<< pairA k)) <<< (64 <<< k)) < _
    apply Nat.or_lt_two_pow (lt_of_lt_of_le hlo hmono)
    rw [shiftLeft_64_eq, Nat.shiftLeft_eq]
    calc (packW k ||| repN k (1 <<< pairA k)) * 2 ^ (64 * 2 ^ k)
        < 2 ^ (64 * 2 ^ k) * 2 ^ (64 * 2 ^ k) := by
          exact Nat.mul_lt_mul_of_lt_of_le hhi (Nat.le_refl _) (by positivity)
      _ = 2 ^ (64 * 2 ^ k + 64 * 2 ^ k) := by rw [Nat.pow_add]
      _ ≤ 2 ^ (64 * 2 ^ (k + 1)) := by
          apply Nat.pow_le_pow_right (by norm_num)
          have : 2 ^ (k + 1) = 2 * 2 ^ k := by ring
          omega

theorem ext_packW (k j : Nat) :
    ext (packW k) j = if j < 2 ^ k then wAcc k j else 0 := by
  induction k generalizing j with
  | zero =>
    rcases Nat.lt_or_ge j 1 with hj | hj
    · interval_cases j
      show ext 0 0 = _
      rw [ext_zero, if_pos (by omega)]
      rfl
    · rw [if_neg (by omega)]
      exact ext_big_zero _ 1 _ (by show (0:Nat) < _; positivity) hj
  | succ k ih =>
    have hp : 2 ^ (k + 1) = 2 ^ k + 2 ^ k := by ring
    have hb : (1 <<< pairB k) < 2 ^ 64 :=
      lt_of_lt_of_le (one_shiftLeft_lt _ (pairB_lt k)) (by norm_num)
    have ha : (1 <<< pairA k) < 2 ^ 64 :=
      lt_of_lt_of_le (one_shiftLeft_lt _ (pairA_lt k)) (by norm_num)
    show ext ((packW k ||| repN k (1 <<< pairB k)) |||
        ((packW k ||| repN k (1 <<< pairA k)) <<< (64 <<< k))) j = _
    rw [ext_lor, ext_lor, shiftLeft_64_eq, ext_shiftLeft_slots, ih, ext_repN _ _ _ hb]
    rcases Nat.lt_or_ge j (2 ^ k) with hj | hj
    · rw [if_pos hj, if_pos hj, if_pos hj, if_pos (by omega)]
      have hwc : wchoice k j = 1 <<< pairB k := by
        unfold wchoice
        rw [Nat.testBit_lt_two_pow hj]
        rfl
      show wAcc k j ||| (1 <<< pairB k) ||| 0 = wAcc (k + 1) j
      have hz : wAcc k j ||| (1 <<< pairB k) ||| 0 = wAcc k j ||| (1 <<< pairB k) := by
        simp
      rw [hz]
      show _ = wAcc k j ||| wchoice k j
      rw [hwc]
    · rw [if_neg (by omega), if_neg (by omega), if_neg (by omega)]
      rcases Nat.lt_or_ge j (2 ^ (k + 1)) with hj2 | hj2
      · rw [ext_lor, ih, ext_repN _ _ _ ha, if_pos (by omega), if_pos (by omega),
          if_pos hj2]
        have hjeq : j = 2 ^ k + (j - 2 ^ k) := by omega
        have hbit : j.testBit k = true := by
          rw [hjeq, Nat.testBit_two_pow_add_eq,
            Nat.testBit_lt_two_pow (x := j - 2 ^ k) (by omega)]
          rfl
        have hwc : wchoice k j = 1 <<< pairA k := by
          unfold wchoice
          rw [hbit]
          rfl
        have hcongr : wAcc k (j - 2 ^ k) = wAcc k j := by
          apply wAcc_congr
          intro i hi
          conv_rhs => rw [hjeq]
          rw [Nat.testBit_two_pow_add_gt hi]
        show 0 ||| 0 ||| (wAcc k (j - 2 ^ k) ||| (1 <<< pairA k)) = wAcc (k + 1) j
        rw [hcongr]
        show _ = wAcc k j ||| wchoice k j
        rw [hwc]
        simp
      · rw [ext_lor, ih, ext_repN _ _ _ ha, if_neg (by omega), if_neg (by omega),
          if_neg (by omega)]
        simp

theorem allMask_lt : allMask < 2 ^ 42 := by
  unfold allMask
  omega

theorem col0Mask_lt : col0Mask < 2 ^ 42 := by
  unfold col0Mask
  norm_num

theorem col5Mask_lt : col5Mask < 2 ^ 42 := by
  unfold col5Mask
  norm_num

theorem notc0_lt : notc0 < 2 ^ 42 :=
  Nat.xor_lt_two_pow allMask_lt col0Mask_lt

theorem notc5_lt : notc5 < 2 ^ 42 :=
  Nat.xor_lt_two_pow allMask_lt col5Mask_lt

theorem lt42_lt64 (x : Nat) (h : x < 2 ^ 42) : x < 2 ^ 64 :=
  lt_of_lt_of_le h (by norm_num)

theorem hAcc_lt (t b : Nat) : hAcc t b < 2 ^ 42 := by
  induction t with
  | zero => show 0 < _; positivity
  | succ t ih =>
    show hAcc t b ||| _ < _
    apply Nat.or_lt_two_pow ih
    split
    · exact one_shiftLeft_lt _ (pairA_lt _)
    · exact one_shiftLeft_lt _ (pairB_lt _)

theorem hiMask_lt (b : Nat) : hiMask b < 2 ^ 42 := hAcc_lt 6 b

theorem conf_land (x y : Nat) (hy : Conf y) : Conf (x &&& y) := by
  intro j
  rw [ext_land]
  exact Nat.and_lt_two_pow _ (hy j)

theorem conf_lor (x y : Nat) (hx : Conf x) (hy : Conf y) : Conf (x ||| y) := by
  intro j
  rw [ext_lor]
  exact Nat.or_lt_two_pow (hx j) (hy j)

theorem conf_repN (pat : Nat) (h : pat < 2 ^ 42) : Conf (repN 15 pat) := by
  intro j
  rw [ext_repN _ _ _ (lt42_lt64 _ h)]
  split
  · exact h
  · positivity

theorem conf_packW : Conf (packW 15) := by
  intro j
  rw [ext_packW]
  split
  · exact wAcc_lt _ _
  · positivity

theorem conf_pWhite (b : Nat) : Conf (pWhite b) :=
  conf_lor _ _ conf_packW (conf_repN _ (hiMask_lt b))

theorem ext_pExpand (s j : Nat) (hs : Conf s) (hj : j < 2 ^ 15) :
    ext (pExpand s (repN 15 allMask) (repN 15 notc0) (repN 15 notc5)) j =
      expandOne (ext s j) := by
  have hrA : ext (repN 15 allMask) j = allMask := by
    rw [ext_repN _ _ _ (lt42_lt64 _ allMask_lt)]
    exact if_pos hj
  have hrN0 : ext (repN 15 notc0) j = notc0 := by
    rw [ext_repN _ _ _ (lt42_lt64 _ notc0_lt)]
    exact if_pos hj
  have hrN5 : ext (repN 15 notc5) j = notc5 := by
    rw [ext_repN _ _ _ (lt42_lt64 _ notc5_lt)]
    exact if_pos hj
  have h1 : ext ((s >>> 1) &&& repN 15 notc5) j = (ext s j >>> 1) &&& notc5 := by
    rw [ext_shiftRight_land _ _ _ _ (by rw [hrN5]; exact lt_of_lt_of_le notc5_lt (by norm_num)) (by norm_num), hrN5]
  have h2 : ext ((s >>> 6) &&& repN 15 allMask) j = (ext s j >>> 6) &&& allMask := by
    rw [ext_shiftRight_land _ _ _ _ (by rw [hrA]; exact lt_of_lt_of_le allMask_lt (by norm_num)) (by norm_num), hrA]
  have h3 : ext ((s >>> 5) &&& repN 15 notc0) j = (ext s j >>> 5) &&& notc0 := by
    rw [ext_shiftRight_land _ _ _ _ (by rw [hrN0]; exact lt_of_lt_of_le notc0_lt (by norm_num)) (by norm_num), hrN0]
  have h4 : ext ((s <<< 1) &&& repN 15 notc0) j = (ext s j <<< 1) &&& notc0 := by
    rw [ext_land, ext_shiftLeft_small _ _ _ hs (by norm_num), hrN0]
  have h5 : ext ((s <<< 6) &&& repN 15 allMask) j = (ext s j <<< 6) &&& allMask := by
    rw [ext_land, ext_shiftLeft_small _ _ _ hs (by norm_num), hrA]
  have h6 : ext ((s <<< 5) &&& repN 15 notc5) j = (ext s j <<< 5) &&& notc5 := by
    rw [ext_land, ext_shiftLeft_small _ _ _ hs (by norm_num), hrN5]
  show ext ((s ||| _ ||| _ ||| _ ||| _ ||| _ ||| _) &&& repN 15 allMask) j = _
  rw [ext_land, hrA, ext_lor, ext_lor, ext_lor, ext_lor, ext_lor, ext_lor,
    h1, h2, h3, h4, h5, h6]
  rfl

theorem ext_pIter (n : Nat) (r w j : Nat) (hr : Conf r) (hw : Conf w)
    (hj : j < 2 ^ 15) :
    ext (pIter n r w (repN 15 allMask) (repN 15 notc0) (repN 15 notc5)) j =
      iterReach n (ext r j) (ext w j) := by
  induction n generalizing r with
  | zero => rfl
  | succ n ih =>
    show ext (pIter n ((pExpand r _ _ _ &&& w) ||| r) w _ _ _) j = _
    have hr2 : Conf ((pExpand r (repN 15 allMask) (repN 15 notc0) (repN 15 notc5) &&& w) ||| r) :=
      conf_lor _ _ (conf_land _ _ hw) hr
    rw [ih _ hr2]
    show iterReach n (ext _ j) _ = iterReach n ((expandOne (ext r j) &&& ext w j) ||| ext r j) _
    rw [ext_lor, ext_land, ext_pExpand _ _ hr hj]

theorem ext_orshr_land (x m j k : Nat) (hm : ext m j < 2 ^ (64 - k))
    (hk : k ≤ 64) :
    ext ((x ||| (x >>> k)) &&& m) j = (ext x j ||| (ext x j >>> k)) &&& ext m j := by
  apply Nat.eq_of_testBit_eq
  intro i
  rcases Nat.lt_or_ge i 64 with hi | hi
  · rw [ext_testBit _ _ _ hi, Nat.testBit_land, Nat.testBit_land,
      Nat.testBit_lor, Nat.testBit_lor, Nat.testBit_shiftRight,
      Nat.testBit_shiftRight, ← ext_testBit x j i hi, ← ext_testBit m j i hi]
    rcases Nat.lt_or_ge (k + i) 64 with hki | hki
    · have h3 : k + (64 * j + i) = 64 * j + (k + i) := by omega
      rw [h3, ← ext_testBit x j (k + i) hki]
    · have h5 : (ext m j).testBit i = false := by
        apply Nat.testBit_lt_two_pow
        calc ext m j < 2 ^ (64 - k) := hm
          _ ≤ 2 ^ i := Nat.pow_le_pow_right (by norm_num) (by omega)
      rw [h5, Bool.and_false, Bool.and_false]
  · rw [ext_testBit_ge _ _ _ hi, Nat.testBit_land, ext_testBit_ge _ _ _ hi]
    simp

theorem ext_pWhite (b j : Nat) (hj : j < 2 ^ 15) :
    ext (pWhite b) j = wAcc 15 j ||| hiMask b := by
  unfold pWhite
  rw [ext_lor, ext_packW, if_pos hj,
    ext_repN _ _ _ (lt42_lt64 _ (hiMask_lt b)), if_pos hj]

theorem ext_pCollapse (f j : Nat) (hj : j < 2 ^ 15) :
    ext (pCollapse f) j = collapseOne (ext f j) := by
  have e1 : ext (repN 15 (2 ^ 21 - 1)) j = 2 ^ 21 - 1 := by
    rw [ext_repN _ _ _ (by norm_num), if_pos hj]
  have e2 : ext (repN 15 (2 ^ 11 - 1)) j = 2 ^ 11 - 1 := by
    rw [ext_repN _ _ _ (by norm_num), if_pos hj]
  have e3 : ext (repN 15 (2 ^ 6 - 1)) j = 2 ^ 6 - 1 := by
    rw [ext_repN _ _ _ (by norm_num), if_pos hj]
  have e4 : ext (repN 15 (2 ^ 3 - 1)) j = 2 ^ 3 - 1 := by
    rw [ext_repN _ _ _ (by norm_num), if_pos hj]
  have e5 : ext (repN 15 (2 ^ 2 - 1)) j = 2 ^ 2 - 1 := by
    rw [ext_repN _ _ _ (by norm_num), if_pos hj]
  have e6 : ext (repN 15 1) j = 1 := by
    rw [ext_repN _ _ _ (by norm_num), if_pos hj]
  simp only [pCollapse, collapseOne]
  rw [ext_orshr_land _ _ _ _ (by rw [e6]; norm_num) (by norm_num),
    ext_orshr_land _ _ _ _ (by rw [e5]; norm_num) (by norm_num),
    ext_orshr_land _ _ _ _ (by rw [e4]; norm_num) (by norm_num),
    ext_orshr_land _ _ _ _ (by rw [e3]; norm_num) (by norm_num),
    ext_orshr_land _ _ _ _ (by rw [e2]; norm_num) (by norm_num),
    ext_orshr_land _ _ _ _ (by rw [e1]; norm_num) (by norm_num),
    e1, e2, e3, e4, e5, e6]

theorem collapseOne_zero : collapseOne 0 = 0 := by decide

theorem batch_sound (b j : Nat) (hb : batchCheck b = true) (hj : j < 2 ^ 15) :
    crossesMask (wAcc 15 j ||| hiMask b) = true := by
  unfold batchCheck at hb
  have heq : pCollapse (pReach b &&& repN 15 col5Mask) = repN 15 1 := by
    simpa using hb
  have h1 : ext (pCollapse (pReach b &&& repN 15 col5Mask)) j = 1 := by
    rw [heq, ext_repN _ _ _ (by norm_num), if_pos hj]
  rw [ext_pCollapse _ _ hj] at h1
  have h2 : ext (pReach b &&& repN 15 col5Mask) j = ext (pReach b) j &&& col5Mask := by
    rw [ext_land, ext_repN _ _ _ (lt42_lt64 _ col5Mask_lt), if_pos hj]
  rw [h2] at h1
  have h3 : ext (pReach b) j =
      iterReach 42 ((wAcc 15 j ||| hiMask b) &&& col0Mask) (wAcc 15 j ||| hiMask b) := by
    show ext (pIter 42 (pWhite b &&& repN 15 col0Mask) (pWhite b)
      (repN 15 allMask) (repN 15 notc0) (repN 15 notc5)) j = _
    rw [ext_pIter _ _ _ _ (conf_land _ _ (conf_repN _ col0Mask_lt)) (conf_pWhite b) hj,
      ext_land, ext_repN _ _ _ (lt42_lt64 _ col0Mask_lt), if_pos hj, ext_pWhite _ _ hj]
  rw [h3] at h1
  have hne : iterReach 42 ((wAcc 15 j ||| hiMask b) &&& col0Mask)
      (wAcc 15 j ||| hiMask b) &&& col5Mask ≠ 0 := by
    intro h0
    rw [h0, collapseOne_zero] at h1
    exact absurd h1 (by norm_num)
  unfold crossesMask
  exact decide_eq_true hne

theorem wAcc_add_h (t s : Nat) :
    wAcc (15 + t) s = wAcc 15 s ||| hAcc t (s >>> 15) := by
  induction t with
  | zero =>
    show wAcc 15 s = wAcc 15 s ||| 0
    simp
  | succ t ih =>
    show wAcc (15 + t) s ||| wchoice (15 + t) s = wAcc 15 s ||| (hAcc t (s >>> 15) ||| _)
    rw [ih, Nat.lor_assoc]
    have hch : wchoice (15 + t) s =
        if (s >>> 15).testBit t then 1 <<< pairA (15 + t) else 1 <<< pairB (15 + t) := by
      unfold wchoice
      rw [Nat.testBit_shiftRight]
    rw [hch]

theorem whiteOf_split (s : Nat) :
    whiteOf s = wAcc 15 (s % 2 ^ 15) ||| hiMask (s >>> 15) := by
  show wAcc 21 s = _
  have h21 : wAcc 21 s = wAcc (15 + 6) s := rfl
  rw [h21, wAcc_add_h]
  have hc : wAcc 15 s = wAcc 15 (s % 2 ^ 15) := by
    apply wAcc_congr
    intro i hi
    rw [Nat.testBit_mod_two_pow]
    simp [hi]
  rw [hc]
  rfl

theorem crossesOne_of_batch (s : Nat)
    (hb : batchCheck (s >>> 15) = true) : crossesOne s = true := by
  unfold crossesOne
  rw [whiteOf_split]
  exact batch_sound _ _ hb (Nat.mod_lt _ (by norm_num))

theorem anyCell_of (f : Nat → Bool) (n m : Nat) (hm : m < n) (hf : f m = true) :
    anyCell f n = true := by
  induction n with
  | zero => omega
  | succ n ih =>
    show (f n || anyCell f n) = true
    rcases Nat.lt_or_ge m n with h | h
    · rw [ih h, Bool.or_true]
    · have : m = n := by omega
      subst this
      rw [hf, Bool.true_or]

theorem allCell_of (f : Nat → Bool) (n : Nat) (h : ∀ m, m < n → f m = true) :
    allCell f n = true := by
  induction n with
  | zero => rfl
  | succ n ih =>
    show (f n && allCell f n) = true
    rw [h n (by omega), ih (fun m hm => h m (by omega)), Bool.and_true]

theorem pairOf_lt : ∀ c, c < 42 → pairOf c < 21 := by decide

theorem partner_lt : ∀ c, c < 42 → partner c < 42 := by decide

theorem partner_ne : ∀ c, c < 42 → partner c ≠ c := by decide

theorem pairOf_partner : ∀ c, c < 42 → pairOf (partner c) = pairOf c := by decide

theorem pair_sides : ∀ c, c < 42 →
    (c = pairA (pairOf c) ∧ partner c = pairB (pairOf c) ∧ c ≠ pairB (pairOf c)) ∨
    (c = pairB (pairOf c) ∧ partner c = pairA (pairOf c) ∧ c ≠ pairA (pairOf c)) := by
  decide

theorem pair_unique : ∀ c, c < 42 → ∀ k, k < 21 →
    ((pairA k = c ∨ pairB k = c) ↔ pairOf c = k) := by
  decide

theorem cnt_le (k d : Nat) : cnt k d ≤ k := by
  induction k with
  | zero => exact Nat.le_refl _
  | succ k ih =>
    show cnt k d + _ ≤ _
    split <;> omega

theorem cnt_zero (k : Nat) : cnt k 0 = 0 := by
  induction k with
  | zero => rfl
  | succ k ih =>
    show cnt k 0 + _ = 0
    rw [ih, Nat.zero_testBit]
    rfl

theorem testBit_lor_pow (d q i : Nat) :
    (d ||| 1 <<< q).testBit i = (d.testBit i || decide (q = i)) := by
  rw [Nat.testBit_lor, Nat.one_shiftLeft, Nat.testBit_two_pow]

theorem cnt_insert_ge (k d q : Nat) (hq : k ≤ q) :
    cnt k (d ||| 1 <<< q) = cnt k d := by
  induction k with
  | zero => rfl
  | succ k ih =>
    show cnt k _ + _ = cnt k d + _
    rw [ih (by omega), testBit_lor_pow]
    have : decide (q = k) = false := by simp; omega
    rw [this, Bool.or_false]

theorem cnt_insert (k d q : Nat) (hq : q < k) (hd : d.testBit q = false) :
    cnt k (d ||| 1 <<< q) = cnt k d + 1 := by
  induction k with
  | zero => omega
  | succ k ih =>
    show cnt k _ + _ = cnt k d + _ + 1
    rcases Nat.lt_or_ge q k with h | h
    · rw [ih h, testBit_lor_pow]
      have : decide (q = k) = false := by simp; omega
      rw [this, Bool.or_false]
      split <;> omega
    · have hqk : q = k := by omega
      subst hqk
      rw [cnt_insert_ge _ _ _ (Nat.le_refl _), testBit_lor_pow, hd]
      have : decide (q = q) = true := by simp
      rw [this]
      rfl

theorem cnt_full (k d : Nat) (h : cnt k d = k) : ∀ q, q < k → d.testBit q = true := by
  induction k with
  | zero => omega
  | succ k ih =>
    intro q hq
    have hstep : cnt (k+1) d = cnt k d + (if d.testBit k then 1 else 0) := rfl
    have hle := cnt_le k d
    have hbit : d.testBit k = true := by
      by_contra hb
      rw [Bool.not_eq_true] at hb
      rw [hstep, hb] at h
      simp at h
      omega
    have hcnt : cnt k d = k := by
      rw [hstep, hbit] at h
      simp at h
      exact h
    rcases Nat.lt_or_ge q k with h2 | h2
    · exact ih hcnt q h2
    · have : q = k := by omega
      subst this
      exact hbit

theorem bAcc_zero (k s : Nat) : bAcc k 0 s = 0 := by
  induction k with
  | zero => rfl
  | succ k ih =>
    show bAcc k 0 s ||| _ = 0
    rw [ih, Nat.zero_testBit]
    simp

theorem wAccD_zero (k s : Nat) : wAccD k 0 s = 0 := by
  induction k with
  | zero => rfl
  | succ k ih =>
    show wAccD k 0 s ||| _ = 0
    rw [ih, Nat.zero_testBit]
    simp

theorem lor_right_comm (a b c : Nat) : a ||| b ||| c = a ||| c ||| b := by
  rw [Nat.lor_assoc, Nat.lor_assoc, Nat.lor_comm b c]

theorem bAcc_congr_s (k d s₁ s₂ : Nat)
    (h : ∀ i, i < k → d.testBit i = true → s₁.testBit i = s₂.testBit i) :
    bAcc k d s₁ = bAcc k d s₂ := by
  induction k with
  | zero => rfl
  | succ k ih =>
    show bAcc k d s₁ ||| _ = bAcc k d s₂ ||| _
    rw [ih (fun i hi => h i (by omega))]
    rcases hd : d.testBit k with _ | _
    · rfl
    · rw [h k (by omega) hd]

theorem wAccD_congr_s (k d s₁ s₂ : Nat)
    (h : ∀ i, i < k → d.testBit i = true → s₁.testBit i = s₂.testBit i) :
    wAccD k d s₁ = wAccD k d s₂ := by
  induction k with
  | zero => rfl
  | succ k ih =>
    show wAccD k d s₁ ||| _ = wAccD k d s₂ ||| _
    rw [ih (fun i hi => h i (by omega))]
    rcases hd : d.testBit k with _ | _
    · rfl
    · rw [h k (by omega) hd]

theorem bAcc_insert_ge (k d s q : Nat) (hq : k ≤ q) :
    bAcc k (d ||| 1 <<< q) s = bAcc k d s := by
  induction k with
  | zero => rfl
  | succ k ih =>
    show bAcc k _ s ||| _ = bAcc k d s ||| _
    rw [ih (by omega), testBit_lor_pow]
    have : decide (q = k) = false := by simp; omega
    rw [this, Bool.or_false]

theorem wAccD_insert_ge (k d s q : Nat) (hq : k ≤ q) :
    wAccD k (d ||| 1 <<< q) s = wAccD k d s := by
  induction k with
  | zero => rfl
  | succ k ih =>
    show wAccD k _ s ||| _ = wAccD k d s ||| _
    rw [ih (by omega), testBit_lor_pow]
    have : decide (q = k) = false := by simp; omega
    rw [this, Bool.or_false]

theorem bAcc_insert (k d s q : Nat) (hq : q < k) (hd : d.testBit q = false) :
    bAcc k (d ||| 1 <<< q) s =
      bAcc k d s ||| (if s.testBit q then 1 <<< pairB q else 1 <<< pairA q) := by
  induction k with
  | zero => omega
  | succ k ih =>
    show bAcc k _ s ||| _ = bAcc k d s ||| _ ||| _
    rcases Nat.lt_or_ge q k with h | h
    · rw [ih h, testBit_lor_pow]
      have : decide (q = k) = false := by simp; omega
      rw [this, Bool.or_false, lor_right_comm]
    · have hqk : q = k := by omega
      subst hqk
      rw [bAcc_insert_ge _ _ _ _ (Nat.le_refl _), testBit_lor_pow, hd]
      simp

theorem wAccD_insert (k d s q : Nat) (hq : q < k) (hd : d.testBit q = false) :
    wAccD k (d ||| 1 <<< q) s =
      wAccD k d s ||| (if s.testBit q then 1 <<< pairA q else 1 <<< pairB q) := by
  induction k with
  | zero => omega
  | succ k ih =>
    show wAccD k _ s ||| _ = wAccD k d s ||| _ ||| _
    rcases Nat.lt_or_ge q k with h | h
    · rw [ih h, testBit_lor_pow]
      have : decide (q = k) = false := by simp; omega
      rw [this, Bool.or_false, lor_right_comm]
    · have hqk : q = k := by omega
      subst hqk
      rw [wAccD_insert_ge _ _ _ _ (Nat.le_refl _), testBit_lor_pow, hd]
      simp

theorem wAccD_full (k d s : Nat) (h : ∀ i, i < k → d.testBit i = true) :
    wAccD k d s = wAcc k s := by
  induction k with
  | zero => rfl
  | succ k ih =>
    show wAccD k d s ||| _ = wAcc k s ||| wchoice k s
    rw [ih (fun i hi => h i (by omega)), h k (by omega)]
    rfl

theorem testBit_one_shiftLeft (a i : Nat) : (1 <<< a).testBit i = decide (a = i) := by
  rw [Nat.one_shiftLeft, Nat.testBit_two_pow]

theorem land_self_bit (s d i : Nat) (h : s &&& d = s) :
    (s.testBit i && d.testBit i) = s.testBit i := by
  rw [← Nat.testBit_land, h]

theorem sub_bit_false (s d i : Nat) (h : s &&& d = s) (hd : d.testBit i = false) :
    s.testBit i = false := by
  have := land_self_bit s d i h
  rw [hd, Bool.and_false] at this
  exact this.symm

theorem sub_insert_both (s d q : Nat) (h : s &&& d = s) :
    (s ||| 1 <<< q) &&& (d ||| 1 <<< q) = s ||| 1 <<< q := by
  apply Nat.eq_of_testBit_eq
  intro i
  rw [Nat.testBit_land, testBit_lor_pow, testBit_lor_pow]
  have h1 := land_self_bit s d i h
  rcases hs : s.testBit i <;> rcases hd : d.testBit i <;>
    rcases hq : decide (q = i) <;> rw [hs, hd] at h1 <;> simp_all

theorem sub_insert_right (s d q : Nat) (h : s &&& d = s) :
    s &&& (d ||| 1 <<< q) = s := by
  apply Nat.eq_of_testBit_eq
  intro i
  rw [Nat.testBit_land, testBit_lor_pow]
  have h1 := land_self_bit s d i h
  rcases hs : s.testBit i <;> rcases hd : d.testBit i <;>
    rcases hq : decide (q = i) <;> rw [hs, hd] at h1 <;> simp_all

theorem bool_or4 (x b y w : Bool) : ((x || b) || (y || w)) = ((x || y) || (b || w)) := by
  cases x <;> cases b <;> cases y <;> cases w <;> rfl

theorem occ_testBit (d s c : Nat) (hc : c < 42) :
    ∀ k, k ≤ 21 → (bAcc k d s ||| wAccD k d s).testBit c =
      (d.testBit (pairOf c) && decide (pairOf c < k)) := by
  intro k
  induction k with
  | zero =>
    intro _
    show ((0 : Nat) ||| 0).testBit c = _
    simp [Nat.zero_testBit]
  | succ k ih =>
    intro hk
    have hk21 : k < 21 := by omega
    have hih := ih (by omega)
    have hbw : ((bAcc k d s).testBit c || (wAccD k d s).testBit c) =
        (d.testBit (pairOf c) && decide (pairOf c < k)) := by
      rw [← Nat.testBit_lor]; exact hih
    show ((bAcc k d s ||| _) ||| (wAccD k d s ||| _)).testBit c = _
    rw [Nat.testBit_lor, Nat.testBit_lor, Nat.testBit_lor, bool_or4, hbw]
    rcases hd : d.testBit k with _ | _
    · rw [if_neg (by simp), if_neg (by simp), Nat.zero_testBit,
        Bool.or_false, Bool.or_false]
      rcases Nat.lt_trichotomy (pairOf c) k with h | h | h
      · rw [decide_eq_true h, decide_eq_true (Nat.lt_succ_of_lt h)]
      · subst h
        rw [hd]
        simp
      · rw [decide_eq_false (by omega : ¬ pairOf c < k),
          decide_eq_false (by omega : ¬ pairOf c < k + 1)]
    · rw [if_pos rfl, if_pos rfl]
      have hor : ∀ u v : Nat,
          ((1 <<< u).testBit c || (1 <<< v).testBit c) =
            (decide (u = c) || decide (v = c)) := by
        intro u v
        rw [testBit_one_shiftLeft, testBit_one_shiftLeft]
      have hAB : (decide (pairA k = c) || decide (pairB k = c)) =
          decide (pairOf c = k) := by
        by_cases h : pairOf c = k
        · rw [decide_eq_true h]
          rcases (pair_unique c hc k hk21).mpr h with h2 | h2
          · rw [decide_eq_true h2]
            simp
          · rw [decide_eq_true h2]
            simp
        · have hA : ¬ pairA k = c := fun ha => h ((pair_unique c hc k hk21).mp (Or.inl ha))
          have hB : ¬ pairB k = c := fun hb => h ((pair_unique c hc k hk21).mp (Or.inr hb))
          rw [decide_eq_false hA, decide_eq_false hB, decide_eq_false h]
          rfl
      have hBW :
          ((if s.testBit k then 1 <<< pairB k else 1 <<< pairA k).testBit c ||
           (if s.testBit k then 1 <<< pairA k else 1 <<< pairB k).testBit c) =
          decide (pairOf c = k) := by
        rcases hs : s.testBit k with _ | _
        · rw [if_neg (by simp), if_neg (by simp), hor, hAB]
        · rw [if_pos rfl, if_pos rfl, hor, Bool.or_comm, hAB]
      rw [hBW]
      rcases Nat.lt_trichotomy (pairOf c) k with h | h | h
      · rw [decide_eq_true h, decide_eq_true (Nat.lt_succ_of_lt h),
          decide_eq_false (by omega : ¬ pairOf c = k)]
        simp
      · subst h
        rw [hd]
        simp
      · rw [decide_eq_false (by omega : ¬ pairOf c < k),
          decide_eq_false (by omega : ¬ pairOf c < k + 1),
          decide_eq_false (by omega : ¬ pairOf c = k)]
        simp

theorem pairing_invariant (hT : ∀ s, s < 2 ^ 21 → crossesOne s = true) :
    ∀ fuel : Nat,
      (∀ d s x, s &&& d = s → s < 2 ^ 21 → x < 42 →
        d.testBit (pairOf x) = false → fuel + 2 * cnt 21 d = 41 →
        whiteWins fuel true (bAcc 21 d s ||| 1 <<< x) (wAccD 21 d s) = true) ∧
      (∀ d s, s &&& d = s → s < 2 ^ 21 → fuel + 2 * cnt 21 d = 42 →
        whiteWins fuel false (bAcc 21 d s) (wAccD 21 d s) = true) := by
  intro fuel
  induction fuel with
  | zero =>
    constructor
    · intro d s x _ _ _ _ hcnt
      omega
    · intro d s hsd hs hcnt
      have hc21 : cnt 21 d = 21 := by omega
      have hall := cnt_full 21 d hc21
      show crossesMask (wAccD 21 d s) = true
      rw [wAccD_full 21 d s hall]
      exact hT s hs
  | succ fuel ih =>
    constructor
    · intro d s x hsd hs hx hdx hcnt
      have hq : pairOf x < 21 := pairOf_lt x hx
      have hpx : partner x < 42 := partner_lt x hx
      show anyCell _ 42 = true
      apply anyCell_of _ 42 (partner x) hpx
      have hocc := occ_testBit d s (partner x) hpx 21 (Nat.le_refl 21)
      rw [pairOf_partner x hx, hdx, Bool.false_and, Nat.testBit_lor] at hocc
      rcases Bool.or_eq_false_iff.mp hocc with ⟨hb1, hw1⟩
      have hx1 : (1 <<< x).testBit (partner x) = false := by
        rw [testBit_one_shiftLeft]
        exact decide_eq_false (fun h => partner_ne x hx h.symm)
      have hempty : ((bAcc 21 d s ||| 1 <<< x) ||| wAccD 21 d s).testBit (partner x)
          = false := by
        rw [Nat.testBit_lor, Nat.testBit_lor, hb1, hw1, hx1]
        rfl
      show (!((bAcc 21 d s ||| 1 <<< x) ||| wAccD 21 d s).testBit (partner x) &&
        whiteWins fuel false (bAcc 21 d s ||| 1 <<< x)
          (wAccD 21 d s ||| 1 <<< partner x)) = true
      rw [hempty, Bool.not_false, Bool.true_and]
      rcases pair_sides x hx with ⟨hxa, hpb, _⟩ | ⟨hxb, hpa, _⟩
      · -- White holds side B of the pair: the choice bit stays clear.
        have hsq : s.testBit (pairOf x) = false := sub_bit_false s d (pairOf x) hsd hdx
        have hb2 : bAcc 21 (d ||| 1 <<< pairOf x) s = bAcc 21 d s ||| 1 <<< x := by
          rw [bAcc_insert 21 d s (pairOf x) hq hdx, if_neg (by simp [hsq]), ← hxa]
        have hw2 : wAccD 21 (d ||| 1 <<< pairOf x) s =
            wAccD 21 d s ||| 1 <<< partner x := by
          rw [wAccD_insert 21 d s (pairOf x) hq hdx, if_neg (by simp [hsq]), ← hpb]
        have hsd2 : s &&& (d ||| 1 <<< pairOf x) = s :=
          sub_insert_right s d (pairOf x) hsd
        have hcnt2 : fuel + 2 * cnt 21 (d ||| 1 <<< pairOf x) = 42 := by
          rw [cnt_insert 21 d (pairOf x) hq hdx]
          omega
        have hres := ih.2 (d ||| 1 <<< pairOf x) s hsd2 hs hcnt2
        rw [hb2, hw2] at hres
        exact hres
      · -- White holds side A of the pair: the choice bit is set.
        have hcongr : ∀ i, i < 21 → d.testBit i = true →
            (s ||| 1 <<< pairOf x).testBit i = s.testBit i := by
          intro i hi hdi
          rw [testBit_lor_pow]
          have hne : decide (pairOf x = i) = false := by
            apply decide_eq_false
            intro h
            rw [← h] at hdi
            rw [hdx] at hdi
            exact Bool.false_ne_true hdi
          rw [hne, Bool.or_false]
        have hsq2 : (s ||| 1 <<< pairOf x).testBit (pairOf x) = true := by
          rw [testBit_lor_pow]
          simp
        have hb2 : bAcc 21 (d ||| 1 <<< pairOf x) (s ||| 1 <<< pairOf x) =
            bAcc 21 d s ||| 1 <<< x := by
          rw [bAcc_insert 21 d (s ||| 1 <<< pairOf x) (pairOf x) hq hdx,
            if_pos hsq2, ← hxb,
            bAcc_congr_s 21 d (s ||| 1 <<< pairOf x) s hcongr]
        have hw2 : wAccD 21 (d ||| 1 <<< pairOf x) (s ||| 1 <<< pairOf x) =
            wAccD 21 d s ||| 1 <<< partner x := by
          rw [wAccD_insert 21 d (s ||| 1 <<< pairOf x) (pairOf x) hq hdx,
            if_pos hsq2, ← hpa,
            wAccD_congr_s 21 d (s ||| 1 <<< pairOf x) s hcongr]
        have hsd2 : (s ||| 1 <<< pairOf x) &&& (d ||| 1 <<< pairOf x) =
            s ||| 1 <<< pairOf x := sub_insert_both s d (pairOf x) hsd
        have hs2 : s ||| 1 <<< pairOf x < 2 ^ 21 := by
          apply Nat.or_lt_two_pow hs
          rw [Nat.one_shiftLeft]
          exact Nat.pow_lt_pow_right (by norm_num) hq
        have hcnt2 : fuel + 2 * cnt 21 (d ||| 1 <<< pairOf x) = 42 := by
          rw [cnt_insert 21 d (pairOf x) hq hdx]
          omega
        have hres := ih.2 (d ||| 1 <<< pairOf x) (s ||| 1 <<< pairOf x) hsd2 hs2 hcnt2
        rw [hb2, hw2] at hres
        exact hres
    · intro d s hsd hs hcnt
      show allCell _ 42 = true
      apply allCell_of
      intro m hm
      show ((bAcc 21 d s ||| wAccD 21 d s).testBit m ||
        whiteWins fuel true (bAcc 21 d s ||| 1 <<< m) (wAccD 21 d s)) = true
      have hocc := occ_testBit d s m hm 21 (Nat.le_refl 21)
      rcases hdq : d.testBit (pairOf m) with _ | _
      · have hW := ih.1 d s m hsd hs hm hdq (by omega)
        rw [hW, Bool.or_true]
      · rw [hdq] at hocc
        have hfull : (bAcc 21 d s ||| wAccD 21 d s).testBit m = true := by
          rw [hocc, decide_eq_true (pairOf_lt m hm)]
          rfl
        rw [hfull, Bool.true_or]

set_option maxRecDepth 100000 in
theorem batchTrue0 : batchCheck 0 = true := by decide

set_option maxRecDepth 100000 in
theorem batchTrue1 : batchCheck 1 = true := by decide

set_option maxRecDepth 100000 in
theorem batchTrue2 : batchCheck 2 = true := by decide

set_option maxRecDepth 100000 in
theorem batchTrue3 : batchCheck 3 = true := by decide

set_option maxRecDepth 100000 in
theorem batchTrue4 : batchCheck 4 = true := by decide

set_option maxRecDepth 100000 in
theorem batchTrue5 : batchCheck 5 = true := by decide

set_option maxRecDepth 100000 in
theorem batchTrue6 : batchCheck 6 = true := by decide

set_option maxRecDepth 100000 in
theorem batchTrue7 : batchCheck 7 = true := by decide

set_option maxRecDepth 100000 in
theorem batchTrue8 : batchCheck 8 = true := by decide

set_option maxRecDepth 100000 in
theorem batchTrue9 : batchCheck 9 = true := by decide

set_option maxRecDepth 100000 in
theorem batchTrue10 : batchCheck 10 = true := by decide

set_option maxRecDepth 100000 in
theorem batchTrue11 : batchCheck 11 = true := by decide

set_option maxRecDepth 100000 in
theorem batchTrue12 : batchCheck 12 = true := by decide

set_option maxRecDepth 100000 in
theorem batchTrue13 : batchCheck 13 = true := by decide

set_option maxRecDepth 100000 in
theorem batchTrue14 : batchCheck 14 = true := by decide

set_option maxRecDepth 100000 in
theorem batchTrue15 : batchCheck 15 = true := by decide

set_option maxRecDepth 100000 in
theorem batchTrue16 : batchCheck 16 = true := by decide

set_option maxRecDepth 100000 in
theorem batchTrue17 : batchCheck 17 = true := by decide

set_option maxRecDepth 100000 in
theorem batchTrue18 : batchCheck 18 = true := by decide

set_option maxRecDepth 100000 in
theorem batchTrue19 : batchCheck 19 = true := by decide

set_option maxRecDepth 100000 in
theorem batchTrue20 : batchCheck 20 = true := by decide

set_option maxRecDepth 100000 in
theorem batchTrue21 : batchCheck 21 = true := by decide

set_option maxRecDepth 100000 in
theorem batchTrue22 : batchCheck 22 = true := by decide

set_option maxRecDepth 100000 in
theorem batchTrue23 : batchCheck 23 = true := by decide

set_option maxRecDepth 100000 in
theorem batchTrue24 : batchCheck 24 = true := by decide

set_option maxRecDepth 100000 in
theorem batchTrue25 : batchCheck 25 = true := by decide

set_option maxRecDepth 100000 in
theorem batchTrue26 : batchCheck 26 = true := by decide

set_option maxRecDepth 100000 in
theorem batchTrue27 : batchCheck 27 = true := by decide

set_option maxRecDepth 100000 in
theorem batchTrue28 : batchCheck 28 = true := by decide

set_option maxRecDepth 100000 in
theorem batchTrue29 : batchCheck 29 = true := by decide

set_option maxRecDepth 100000 in
theorem batchTrue30 : batchCheck 30 = true := by decide

set_option maxRecDepth 100000 in
theorem batchTrue31 : batchCheck 31 = true := by decide

set_option maxRecDepth 100000 in
theorem batchTrue32 : batchCheck 32 = true := by decide

set_option maxRecDepth 100000 in
theorem batchTrue33 : batchCheck 33 = true := by decide

set_option maxRecDepth 100000 in
theorem batchTrue34 : batchCheck 34 = true := by decide

set_option maxRecDepth 100000 in
theorem batchTrue35 : batchCheck 35 = true := by decide

set_option maxRecDepth 100000 in
theorem batchTrue36 : batchCheck 36 = true := by decide

set_option maxRecDepth 100000 in
theorem batchTrue37 : batchCheck 37 = true := by decide

set_option maxRecDepth 100000 in
theorem batchTrue38 : batchCheck 38 = true := by decide

set_option maxRecDepth 100000 in
theorem batchTrue39 : batchCheck 39 = true := by decide

set_option maxRecDepth 100000 in
theorem batchTrue40 : batchCheck 40 = true := by decide

set_option maxRecDepth 100000 in
theorem batchTrue41 : batchCheck 41 = true := by decide

set_option maxRecDepth 100000 in
theorem batchTrue42 : batchCheck 42 = true := by decide

set_option maxRecDepth 100000 in
theorem batchTrue43 : batchCheck 43 = true := by decide

set_option maxRecDepth 100000 in
theorem batchTrue44 : batchCheck 44 = true := by decide

set_option maxRecDepth 100000 in
theorem batchTrue45 : batchCheck 45 = true := by decide

set_option maxRecDepth 100000 in
theorem batchTrue46 : batchCheck 46 = true := by decide

set_option maxRecDepth 100000 in
theorem batchTrue47 : batchCheck 47 = true := by decide

set_option maxRecDepth 100000 in
theorem batchTrue48 : batchCheck 48 = true := by decide

set_option maxRecDepth 100000 in
theorem batchTrue49 : batchCheck 49 = true := by decide

set_option maxRecDepth 100000 in
theorem batchTrue50 : batchCheck 50 = true := by decide

set_option maxRecDepth 100000 in
theorem batchTrue51 : batchCheck 51 = true := by decide

set_option maxRecDepth 100000 in
theorem batchTrue52 : batchCheck 52 = true := by decide

set_option maxRecDepth 100000 in
theorem batchTrue53 : batchCheck 53 = true := by decide

set_option maxRecDepth 100000 in
theorem batchTrue54 : batchCheck 54 = true := by decide

set_option maxRecDepth 100000 in
theorem batchTrue55 : batchCheck 55 = true := by decide

set_option maxRecDepth 100000 in
theorem batchTrue56 : batchCheck 56 = true := by decide

set_option maxRecDepth 100000 in
theorem batchTrue57 : batchCheck 57 = true := by decide

set_option maxRecDepth 100000 in
theorem batchTrue58 : batchCheck 58 = true := by decide

set_option maxRecDepth 100000 in
theorem batchTrue59 : batchCheck 59 = true := by decide

set_option maxRecDepth 100000 in
theorem batchTrue60 : batchCheck 60 = true := by decide

set_option maxRecDepth 100000 in
theorem batchTrue61 : batchCheck 61 = true := by decide

set_option maxRecDepth 100000 in
theorem batchTrue62 : batchCheck 62 = true := by decide

set_option maxRecDepth 100000 in
theorem batchTrue63 : batchCheck 63 = true := by decide

theorem allBatches : ∀ b, b < 64 → batchCheck b = true := by
  intro b hb
  interval_cases b
  exacts [batchTrue0, batchTrue1, batchTrue2, batchTrue3, batchTrue4, batchTrue5, batchTrue6, batchTrue7, batchTrue8, batchTrue9, batchTrue10, batchTrue11, batchTrue12, batchTrue13, batchTrue14, batchTrue15, batchTrue16, batchTrue17, batchTrue18, batchTrue19, batchTrue20, batchTrue21, batchTrue22, batchTrue23, batchTrue24, batchTrue25, batchTrue26, batchTrue27, batchTrue28, batchTrue29, batchTrue30, batchTrue31, batchTrue32, batchTrue33, batchTrue34, batchTrue35, batchTrue36, batchTrue37, batchTrue38, batchTrue39, batchTrue40, batchTrue41, batchTrue42, batchTrue43, batchTrue44, batchTrue45, batchTrue46, batchTrue47, batchTrue48, batchTrue49, batchTrue50, batchTrue51, batchTrue52, batchTrue53, batchTrue54, batchTrue55, batchTrue56, batchTrue57, batchTrue58, batchTrue59, batchTrue60, batchTrue61, batchTrue62, batchTrue63]

theorem transversal : ∀ s, s < 2 ^ 21 → crossesOne s = true := by
  intro s hs
  apply crossesOne_of_batch
  apply allBatches
  rw [Nat.shiftRight_eq_div_pow]
  omega

/-- C1: on the 6x7 board (the find_permanently_inferior parameter does not
affect the exact game value), for every one of the 42 possible Black first
moves `o`, solving the resulting position with White to play returns the
winner "white". -/
theorem c1_solve_state_white (o : Nat) (ho : o < 42) : solveStateW o = "white" := by
  unfold solveStateW
  have h := (pairing_invariant transversal 41).1 0 0 o (by simp) (by norm_num) ho
    (by rw [Nat.zero_testBit]) (by rw [cnt_zero])
  rw [bAcc_zero, wAccD_zero, Nat.zero_or] at h
  rw [if_pos h]

theorem c1_solve_state_white_witness : 0 < 42 ∧ solveStateW 0 = "white" :=
  ⟨by norm_num, c1_solve_state_white 0 (by norm_num)⟩


theorem foldIff (f : Nat → DRes) (g occ : Nat → Bool) :
    ∀ n, (∀ m, m < n → occ m = false → (f m = DRes.unknown ↔ g m = true)) →
    (dfsFold f occ n = DRes.unknown ↔ firedFold f g occ n = true) := by
  intro n
  induction n with
  | zero =>
    intro _
    simp [dfsFold, firedFold]
  | succ n ih =>
    intro h
    have ih' := ih fun m hm => h m (by omega)
    simp only [dfsFold, firedFold]
    by_cases ho : occ n = true
    · rw [if_pos ho, if_pos ho]
      exact ih'
    · have ho' : occ n = false := by
        rcases hoo : occ n with _ | _
        · rfl
        · exact absurd hoo ho
      rw [if_neg ho, if_neg ho]
      have hiff := h n (by omega) ho'
      by_cases hg : g n = true
      · rw [if_pos hg]
        have hf : f n = DRes.unknown := hiff.mpr hg
        rw [hf]
        simp
      · rw [if_neg hg]
        have hf : f n ≠ DRes.unknown := fun hu => hg (hiff.mp hu)
        rcases hfn : f n with _ | _ | _
        · exact ih'
        · simp
        · exact absurd hfn hf

theorem negamax_unknown_iff :
    ∀ fuel dl turn b w, (negamaxD dl fuel turn b w = DRes.unknown ↔
      searchFired dl fuel turn b w = true) := by
  intro fuel
  induction fuel with
  | zero =>
    intro dl turn b w
    refine ⟨fun h => ?_, fun h => ?_⟩
    · exfalso
      revert h
      simp only [negamaxD]
      split <;> simp
    · exact absurd h (by simp [searchFired])
  | succ fuel ih =>
    intro dl turn b w
    rcases dl with _ | dl
    · simp [negamaxD, searchFired]
    · cases turn
      · have h1 : negamaxD (dl+1) (fuel+1) false b w =
            dfsFold (fun m => negamaxD dl fuel true (b ||| 1 <<< m) w)
              (fun m => (b ||| w).testBit m) 42 := rfl
        have h2 : searchFired (dl+1) (fuel+1) false b w =
            firedFold (fun m => negamaxD dl fuel true (b ||| 1 <<< m) w)
              (fun m => searchFired dl fuel true (b ||| 1 <<< m) w)
              (fun m => (b ||| w).testBit m) 42 := rfl
        rw [h1, h2]
        apply foldIff
        intro m _ _
        exact ih dl true (b ||| 1 <<< m) w
      · have h1 : negamaxD (dl+1) (fuel+1) true b w =
            dfsFold (fun m => negamaxD dl fuel false b (w ||| 1 <<< m))
              (fun m => (b ||| w).testBit m) 42 := rfl
        have h2 : searchFired (dl+1) (fuel+1) true b w =
            firedFold (fun m => negamaxD dl fuel false b (w ||| 1 <<< m))
              (fun m => searchFired dl fuel false b (w ||| 1 <<< m))
              (fun m => (b ||| w).testBit m) 42 := rfl
        rw [h1, h2]
        apply foldIff
        intro m _ _
        exact ih dl false b (w ||| 1 <<< m)

theorem firedFold_false (f : Nat → DRes) (g occ : Nat → Bool) :
    ∀ n, (∀ m, m < n → occ m = false → g m = false) →
    firedFold f g occ n = false := by
  intro n
  induction n with
  | zero =>
    intro _
    rfl
  | succ n ih =>
    intro h
    simp only [firedFold]
    by_cases ho : occ n = true
    · rw [if_pos ho]
      exact ih fun m hm => h m (by omega)
    · have ho' : occ n = false := by
        rcases hoo : occ n with _ | _
        · rfl
        · exact absurd hoo ho
      rw [if_neg ho, if_neg (by rw [h n (by omega) ho']; simp)]
      rcases hfn : f n with _ | _ | _
      · exact ih fun m hm => h m (by omega)
      · rfl
      · exact ih fun m hm => h m (by omega)

theorem searchFired_of_le :
    ∀ fuel dl turn b w, fuel ≤ dl → searchFired dl fuel turn b w = false := by
  intro fuel
  induction fuel with
  | zero =>
    intro dl turn b w _
    simp [searchFired]
  | succ fuel ih =>
    intro dl turn b w h
    rcases dl with _ | dl
    · omega
    · cases turn
      · have h2 : searchFired (dl+1) (fuel+1) false b w =
            firedFold (fun m => negamaxD dl fuel true (b ||| 1 <<< m) w)
              (fun m => searchFired dl fuel true (b ||| 1 <<< m) w)
              (fun m => (b ||| w).testBit m) 42 := rfl
        rw [h2]
        apply firedFold_false
        intro m _ _
        exact ih dl true (b ||| 1 <<< m) w (by omega)
      · have h2 : searchFired (dl+1) (fuel+1) true b w =
            firedFold (fun m => negamaxD dl fuel false b (w ||| 1 <<< m))
              (fun m => searchFired dl fuel false b (w ||| 1 <<< m))
              (fun m => (b ||| w).testBit m) 42 := rfl
        rw [h2]
        apply firedFold_false
        intro m _ _
        exact ih dl false b (w ||| 1 <<< m) (by omega)

theorem anyCell_congr (f g : Nat → Bool) (h : ∀ m, f m = g m) :
    ∀ n, anyCell f n = anyCell g n := by
  intro n
  induction n with
  | zero => rfl
  | succ n ih =>
    show (f n || anyCell f n) = (g n || anyCell g n)
    rw [h n, ih]

theorem anyCell_not (f : Nat → Bool) :
    ∀ n, anyCell (fun m => !f m) n = !allCell f n := by
  intro n
  induction n with
  | zero => rfl
  | succ n ih =>
    show (!f n || anyCell (fun m => !f m) n) = !(f n && allCell f n)
    rw [ih]
    cases hf : f n <;> cases ha : allCell f n <;> rfl

theorem dfsFold_char (f : Nat → DRes) (g occ p : Nat → Bool) :
    ∀ n, (∀ m, m < n → occ m = false → g m = false →
        f m = (if p m then DRes.win else DRes.loss)) →
      firedFold f g occ n = false →
      dfsFold f occ n =
        (if anyCell (fun m => !occ m && !p m) n then DRes.win
          else DRes.loss) := by
  intro n
  induction n with
  | zero =>
    intro _ _
    rfl
  | succ n ih =>
    intro h hF
    have hstep : firedFold f g occ (n+1) =
        (if occ n = true then firedFold f g occ n
        else if g n = true then true
        else match f n with
          | DRes.loss => false
          | _ => firedFold f g occ n) := rfl
    have hstep2 : dfsFold f occ (n+1) =
        (if occ n = true then dfsFold f occ n
        else match f n with
          | DRes.loss => DRes.win
          | DRes.unknown => DRes.unknown
          | DRes.win => dfsFold f occ n) := rfl
    rw [hstep] at hF
    rw [hstep2]
    by_cases ho : occ n = true
    · rw [if_pos ho] at hF
      rw [if_pos ho]
      have hany : anyCell (fun m => !occ m && !p m) (n+1) =
          anyCell (fun m => !occ m && !p m) n := by
        show ((!occ n && !p n) || _) = _
        rw [ho]
        simp
      rw [hany]
      exact ih (fun m hm => h m (by omega)) hF
    · have ho' : occ n = false := by
        rcases hoo : occ n with _ | _
        · rfl
        · exact absurd hoo ho
      rw [if_neg ho] at hF
      rw [if_neg ho]
      have hg : g n = false := by
        rcases hgn : g n with _ | _
        · rfl
        · rw [if_pos hgn] at hF
          simp at hF
      rw [if_neg (by rw [hg]; simp)] at hF
      have hfm := h n (by omega) ho' hg
      have hany : anyCell (fun m => !occ m && !p m) (n+1) =
          ((!p n) || anyCell (fun m => !occ m && !p m) n) := by
        show ((!occ n && !p n) || _) = _
        rw [ho']
        simp
      rw [hany]
      rcases hp : p n with _ | _
      · have hfl : f n = DRes.loss := by
          rw [hfm, hp]
          rfl
        rw [hfl]
        simp
      · have hfw : f n = DRes.win := by
          rw [hfm, hp]
          rfl
        rw [hfw] at hF ⊢
        have hF' : firedFold f g occ n = false := hF
        have := ih (fun m hm => h m (by omega)) hF'
        rw [this]
        simp

theorem negamax_correct :
    ∀ fuel dl turn b w, searchFired dl fuel turn b w = false →
    negamaxD dl fuel turn b w =
      (if toPlayWins fuel turn b w then DRes.win else DRes.loss) := by
  intro fuel
  induction fuel with
  | zero =>
    intro dl turn b w _
    simp only [negamaxD]
    rfl
  | succ fuel ih =>
    intro dl turn b w hfired
    rcases dl with _ | dl
    · exact absurd hfired (by simp [searchFired])
    · cases turn
      · -- Black to move
        have h1 : negamaxD (dl+1) (fuel+1) false b w =
            dfsFold (fun m => negamaxD dl fuel true (b ||| 1 <<< m) w)
              (fun m => (b ||| w).testBit m) 42 := rfl
        have h2 : searchFired (dl+1) (fuel+1) false b w =
            firedFold (fun m => negamaxD dl fuel true (b ||| 1 <<< m) w)
              (fun m => searchFired dl fuel true (b ||| 1 <<< m) w)
              (fun m => (b ||| w).testBit m) 42 := rfl
        rw [h2] at hfired
        rw [h1]
        rw [dfsFold_char
          (fun m => negamaxD dl fuel true (b ||| 1 <<< m) w)
          (fun m => searchFired dl fuel true (b ||| 1 <<< m) w)
          (fun m => (b ||| w).testBit m)
          (fun m => toPlayWins fuel true (b ||| 1 <<< m) w)
          42 (fun m _ _ hg => ih dl true (b ||| 1 <<< m) w hg) hfired]
        rw [anyCell_congr _
          (fun m => !((b ||| w).testBit m ||
            whiteWins fuel true (b ||| 1 <<< m) w))
          (fun m => by
            show (!(b ||| w).testBit m && !toPlayWins fuel true (b ||| 1 <<< m) w)
              = !((b ||| w).testBit m || whiteWins fuel true (b ||| 1 <<< m) w)
            rw [Bool.not_or]
            unfold toPlayWins
            cases hW : whiteWins fuel true (b ||| 1 <<< m) w <;> rfl) 42]
        rw [anyCell_not]
        have hWd : whiteWins (fuel+1) false b w =
            allCell (fun m => (b ||| w).testBit m ||
              whiteWins fuel true (b ||| 1 <<< m) w) 42 := rfl
        rw [← hWd]
        unfold toPlayWins
        cases hW : whiteWins (fuel+1) false b w <;> rfl
      · -- White to move
        have h1 : negamaxD (dl+1) (fuel+1) true b w =
            dfsFold (fun m => negamaxD dl fuel false b (w ||| 1 <<< m))
              (fun m => (b ||| w).testBit m) 42 := rfl
        have h2 : searchFired (dl+1) (fuel+1) true b w =
            firedFold (fun m => negamaxD dl fuel false b (w ||| 1 <<< m))
              (fun m => searchFired dl fuel false b (w ||| 1 <<< m))
              (fun m => (b ||| w).testBit m) 42 := rfl
        rw [h2] at hfired
        rw [h1]
        rw [dfsFold_char
          (fun m => negamaxD dl fuel false b (w ||| 1 <<< m))
          (fun m => searchFired dl fuel false b (w ||| 1 <<< m))
          (fun m => (b ||| w).testBit m)
          (fun m => toPlayWins fuel false b (w ||| 1 <<< m))
          42 (fun m _ _ hg => ih dl false b (w ||| 1 <<< m) hg) hfired]
        rw [anyCell_congr _
          (fun m => !(b ||| w).testBit m &&
            whiteWins fuel false b (w ||| 1 <<< m))
          (fun m => by
            show (!(b ||| w).testBit m && !toPlayWins fuel false b (w ||| 1 <<< m))
              = (!(b ||| w).testBit m && whiteWins fuel false b (w ||| 1 <<< m))
            unfold toPlayWins
            cases hW : whiteWins fuel false b (w ||| 1 <<< m) <;> rfl) 42]
        have hWd : whiteWins (fuel+1) true b w =
            anyCell (fun m => !(b ||| w).testBit m &&
              whiteWins fuel false b (w ||| 1 <<< m)) 42 := rfl
        rw [← hWd]
        unfold toPlayWins
        cases hW : whiteWins (fuel+1) true b w <;> rfl

/-- C2: the solver returns UNKNOWN exactly when the time limit / user
abort or the depth limit fired during the search; the depth limit cannot
fire when the depth limit covers the number of empty cells; and on every
call where nothing fires the result is WIN exactly when the colour to
play wins and LOSS exactly when it loses. -/
theorem c2_solver_unknown_iff (abort : Bool) (dl fuel : Nat) (turn : Bool)
    (b w : Nat) :
    (dfsSolve abort dl fuel turn b w = DRes.unknown ↔
      (abort = true ∨ searchFired dl fuel turn b w = true)) ∧
    (fuel ≤ dl → searchFired dl fuel turn b w = false) ∧
    (abort = false → searchFired dl fuel turn b w = false →
      ((dfsSolve abort dl fuel turn b w = DRes.win ↔
          toPlayWins fuel turn b w = true) ∧
        (dfsSolve abort dl fuel turn b w = DRes.loss ↔
          toPlayWins fuel turn b w = false))) := by
  refine ⟨?_, fun h => searchFired_of_le fuel dl turn b w h, ?_⟩
  · cases abort
    · show negamaxD dl fuel turn b w = DRes.unknown ↔ _
      constructor
      · intro h
        exact Or.inr ((negamax_unknown_iff fuel dl turn b w).mp h)
      · intro h
        rcases h with h | h
        · exact absurd h (by simp)
        · exact (negamax_unknown_iff fuel dl turn b w).mpr h
    · show DRes.unknown = DRes.unknown ↔ _
      simp
  · intro ha hf
    subst ha
    have hcor := negamax_correct fuel dl turn b w hf
    constructor
    · show negamaxD dl fuel turn b w = DRes.win ↔ _
      rw [hcor]
      cases htp : toPlayWins fuel turn b w <;> simp
    · show negamaxD dl fuel turn b w = DRes.loss ↔ _
      rw [hcor]
      cases htp : toPlayWins fuel turn b w <;> simp

theorem c2_solver_unknown_iff_witness :
    searchFired 1 0 true 0 0 = false ∧
      (dfsSolve false 1 0 true 0 0 = DRes.loss ↔
        toPlayWins 0 true 0 0 = false) :=
  ⟨(c2_solver_unknown_iff false 1 0 true 0 0).2.1 (by norm_num),
   ((c2_solver_unknown_iff false 1 0 true 0 0).2.2 rfl
     ((c2_solver_unknown_iff false 1 0 true 0 0).2.1 (by norm_num))).2⟩

end HexGame

namespace Benzene

theorem runOps_append (key : Bool → Nat → Nat) (rec : SB → Bool → Nat)
    (u v : List HBOp) (st : HexBd) :
    runOps key rec (u ++ v) st = runOps key rec v (runOps key rec u st) := by
  induction u generalizing st with
  | nil => rfl
  | cons op rest ih =>
    show runOps key rec (rest ++ v) _ = _
    rw [ih]
    rfl

theorem undo_play (key : Bool → Nat → Nat) (rec : SB → Bool → Nat)
    (c : Bool) (cell : Nat) (st : HexBd) :
    undoMove (playMove key rec c cell st) = st := rfl

theorem undo_playStones (rec : SB → Bool → Nat) (c : Bool) (played : Nat)
    (ctm : Bool) (st : HexBd) :
    undoMove (playStones rec c played ctm st) = st := rfl

theorem matched_id (key : Bool → Nat → Nat) (rec : SB → Bool → Nat)
    (w : List HBOp) (hw : Matched w) (st : HexBd) :
    runOps key rec w st = st := by
  induction hw generalizing st with
  | nil => rfl
  | seq _ _ ihu ihv =>
    rw [runOps_append, ihu, ihv]
  | pair c cell _ ih =>
    show runOps key rec (_ ++ [HBOp.undoM]) (playMove key rec c cell st) = st
    rw [runOps_append, ih]
    exact undo_play key rec c cell st

/-- C6: for every sequence of matched PlayMove / UndoMove pairs starting
from any state, the StoneBoard Zobrist hash returns to its initial value
after the sequence. -/
theorem c6_matched_hash_roundtrip (key : Bool → Nat → Nat)
    (rec : SB → Bool → Nat) (w : List HBOp) (hw : Matched w) (st : HexBd) :
    (runOps key rec w st).board.hash = st.board.hash := by
  rw [matched_id key rec w hw st]

theorem c6_matched_hash_roundtrip_witness :
    Matched [HBOp.playM true 3, HBOp.undoM] ∧
      (runOps (fun _ n => n + 1) (fun _ _ => 0)
        [HBOp.playM true 3, HBOp.undoM]
        ⟨⟨0, 0, 0, 5⟩, 0, true, 0, []⟩).board.hash =
      (HexBd.mk ⟨0, 0, 0, 5⟩ 0 true 0 []).board.hash :=
  ⟨Matched.pair true 3 Matched.nil,
   c6_matched_hash_roundtrip (fun _ n => n + 1) (fun _ _ => 0)
     [HBOp.playM true 3, HBOp.undoM] (Matched.pair true 3 Matched.nil)
     ⟨⟨0, 0, 0, 5⟩, 0, true, 0, []⟩⟩

/-- C7: PlayStones plays a set of stones of one colour without modifying
the position hash, and a single subsequent UndoMove reverts everything
the PlayStones call changed. -/
theorem c7_playstones_hash_and_undo (rec : SB → Bool → Nat) (c : Bool)
    (played : Nat) (ctm : Bool) (st : HexBd) :
    (playStones rec c played ctm st).board.hash = st.board.hash ∧
      undoMove (playStones rec c played ctm st) = st := by
  constructor
  · cases c <;> rfl
  · exact undo_playStones rec c played ctm st

theorem testBit_mdiff (x y i : Nat) :
    (mdiff x y).testBit i = (x.testBit i && !y.testBit i) := by
  unfold mdiff
  rw [Nat.testBit_xor, Nat.testBit_land]
  cases hx : x.testBit i <;> cases hy : y.testBit i <;> rfl

theorem hypEmpty (univ l w P : Nat) :
    getEmptyLW univ (loserFilled univ l w P) w = getEmptyLW univ l w &&& P := by
  apply Nat.eq_of_testBit_eq
  intro i
  simp only [getEmptyLW, loserFilled, testBit_mdiff, Nat.testBit_lor, Nat.testBit_land]
  rcases hu : univ.testBit i <;> rcases hl : l.testBit i <;>
    rcases hw : w.testBit i <;> rcases hP : P.testBit i <;> rfl

theorem c5_shrink_proof (V : Nat → Nat → Bool) (Φ : Nat → Nat → Nat)
    (univ l w P : Nat)
    (hΦ : ∀ a b, Φ a b &&& getEmptyLW univ a b = Φ a b)
    (hV : ∀ a b, V a b = true → V (a ||| Φ a b) b = true) :
    (shrinkProof Φ univ l w P &&& P = shrinkProof Φ univ l w P) ∧
    (validProof V univ l w P →
      validProof V univ l w (shrinkProof Φ univ l w P)) := by
  constructor
  · apply Nat.eq_of_testBit_eq
    intro i
    rw [Nat.testBit_land]
    unfold shrinkProof
    rw [testBit_mdiff]
    cases hp : P.testBit i <;> simp
  · intro hvalid
    unfold validProof at hvalid ⊢
    obtain ⟨f, hf⟩ : ∃ f, Φ (loserFilled univ l w P) w = f := ⟨_, rfl⟩
    have hsub := hΦ (loserFilled univ l w P) w
    rw [hypEmpty, hf] at hsub
    have hs : shrinkProof Φ univ l w P = mdiff P f := by
      unfold shrinkProof
      rw [hf]
    have hkey : loserFilled univ l w (shrinkProof Φ univ l w P) =
        loserFilled univ l w P ||| f := by
      rw [hs]
      apply Nat.eq_of_testBit_eq
      intro i
      have hbit := congrArg (fun t => t.testBit i) hsub
      simp only [Nat.testBit_land, getEmptyLW, testBit_mdiff,
        Nat.testBit_lor] at hbit
      simp only [loserFilled, getEmptyLW, testBit_mdiff, Nat.testBit_lor]
      rcases hu : univ.testBit i <;> rcases hl : l.testBit i <;>
        rcases hw : w.testBit i <;> rcases hP : P.testBit i <;>
        rcases hfi : f.testBit i <;> simp_all
    rw [hkey, ← hf]
    exact hV _ _ hvalid

theorem c5_shrink_proof_witness :
    (shrinkProof (fun _ _ => 0) 7 1 2 4 &&& 4 = shrinkProof (fun _ _ => 0) 7 1 2 4) ∧
      validProof (fun _ _ => true) 7 1 2 (shrinkProof (fun _ _ => 0) 7 1 2 4) :=
  ⟨(c5_shrink_proof (fun _ _ => true) (fun _ _ => 0) 7 1 2 4
      (fun a b => by simp) (fun a b h => h)).1,
   (c5_shrink_proof (fun _ _ => true) (fun _ _ => 0) 7 1 2 4
      (fun a b => by simp) (fun a b h => h)).2 rfl⟩

theorem shift_one_testBit (a i : Nat) : (1 <<< a).testBit i = decide (a = i) := by
  rw [Nat.one_shiftLeft, Nat.testBit_two_pow]

theorem addVuln_vuln (d k c : Nat) (o : VOut) :
    (addVuln d k c o).vuln = o.vuln ||| 1 <<< d := rfl

theorem cellFold_vuln_mono (step : Nat → VOut → VOut)
    (hstep : ∀ m o i, o.vuln.testBit i = true → ((step m o).vuln).testBit i = true)
    (k : Nat) (o : VOut) (i : Nat) (h : o.vuln.testBit i = true) :
    ((cellFold step k o).vuln).testBit i = true := by
  induction k with
  | zero => exact h
  | succ k ih => exact hstep k _ i ih

theorem innerStep_mono (revS domS deadM filled p : Nat) :
    ∀ m o i, o.vuln.testBit i = true →
      ((innerStep revS domS deadM filled p m o).vuln).testBit i = true := by
  intro m o i h
  unfold innerStep
  by_cases hc : (deadM.testBit m && !o.vuln.testBit m && !revS.testBit m &&
      !domS.testBit m) = true
  · rw [if_pos hc, addVuln_vuln, Nat.testBit_lor, h]
    rfl
  · rw [if_neg hc]
    exact h

theorem backupInner_vuln_mono (k : Nat) (revS domS deadM filled p : Nat)
    (o : VOut) (i : Nat) (h : o.vuln.testBit i = true) :
    ((backupInner k revS domS deadM filled p o).vuln).testBit i = true :=
  cellFold_vuln_mono _ (innerStep_mono revS domS deadM filled p) k o i h

theorem backupInner_sets (k : Nat) (revS domS deadM filled p : Nat) (o : VOut)
    (d : Nat) (hd : d < k) (hdead : deadM.testBit d = true)
    (hrev : revS.testBit d = false) (hdom : domS.testBit d = false) :
    ((backupInner k revS domS deadM filled p o).vuln).testBit d = true := by
  induction k with
  | zero => omega
  | succ k ih =>
    show ((innerStep revS domS deadM filled p k
      (backupInner k revS domS deadM filled p o)).vuln).testBit d = true
    rcases Nat.lt_or_ge d k with hlt | hge
    · exact innerStep_mono revS domS deadM filled p k _ d (ih hlt)
    · have hdk : d = k := by omega
      subst hdk
      unfold innerStep
      rcases hv : ((backupInner d revS domS deadM filled p o).vuln).testBit d
        with _ | _
      · rw [if_pos (by simp [hdead, hv, hrev, hdom]), addVuln_vuln,
          Nat.testBit_lor, shift_one_testBit]
        simp
      · rw [if_neg (by simp [hv])]
        exact hv

theorem backupInner_entries (k : Nat) (revS domS deadM filled p : Nat)
    (o : VOut) (e : Nat × Nat × Nat)
    (he : e ∈ (backupInner k revS domS deadM filled p o).entries) :
    e ∈ o.entries ∨
      (e.1 < k ∧ deadM.testBit e.1 = true ∧ e.2.1 = p ∧
        e.2.2 = mdiff (mdiff filled (1 <<< e.1)) (1 <<< p) ∧
        revS.testBit e.1 = false ∧ domS.testBit e.1 = false ∧
        o.vuln.testBit e.1 = false) := by
  induction k with
  | zero => exact Or.inl he
  | succ k ih =>
    have he1 : e ∈ ((innerStep revS domS deadM filled p k
        (backupInner k revS domS deadM filled p o)).entries) := he
    unfold innerStep at he1
    by_cases hc : (deadM.testBit k &&
        !((backupInner k revS domS deadM filled p o).vuln).testBit k &&
        !revS.testBit k && !domS.testBit k) = true
    · rw [if_pos hc] at he1
      simp only [Bool.and_eq_true, Bool.not_eq_true'] at hc
      obtain ⟨⟨⟨hde, hnv⟩, hre⟩, hdo⟩ := hc
      rcases List.mem_cons.mp he1 with he2 | he2
      · subst he2
        refine Or.inr ⟨by omega, hde, rfl, rfl, hre, hdo, ?_⟩
        rcases h : o.vuln.testBit k with _ | _
        · rfl
        · have hb := backupInner_vuln_mono k revS domS deadM filled p o k h
          rw [hb] at hnv
          exact absurd hnv (by simp)
      · rcases ih he2 with h | ⟨h1, h2, h3, h4, h5, h6, h7⟩
        · exact Or.inl h
        · exact Or.inr ⟨by omega, h2, h3, h4, h5, h6, h7⟩
    · rw [if_neg hc] at he1
      rcases ih he1 with h | ⟨h1, h2, h3, h4, h5, h6, h7⟩
      · exact Or.inl h
      · exact Or.inr ⟨by omega, h2, h3, h4, h5, h6, h7⟩


theorem outerStep_mono (n : Nat) (empty : Nat) (F8 : Nat → Nat × Nat)
    (o₀ : VOut) : ∀ m o i, o.vuln.testBit i = true →
      ((outerStep n empty F8 o₀ m o).vuln).testBit i = true := by
  intro m o i h
  unfold outerStep
  by_cases hc : empty.testBit m = true
  · rw [if_pos hc]
    exact backupInner_vuln_mono n _ _ _ _ m o i h
  · rw [if_neg hc]
    exact h

theorem outerFold_sets (n : Nat) (empty : Nat) (F8 : Nat → Nat × Nat)
    (o₀ : VOut) (k : Nat) (o : VOut) (p d : Nat) (hp : p < k)
    (hemp : empty.testBit p = true) (hd : d < n)
    (hdead : (F8 p).1.testBit d = true)
    (hrev : o₀.reversible.testBit d = false)
    (hdom : o₀.dominated.testBit d = false) :
    ((cellFold (outerStep n empty F8 o₀) k o).vuln).testBit d = true := by
  induction k with
  | zero => omega
  | succ k ih =>
    show ((outerStep n empty F8 o₀ k
      (cellFold (outerStep n empty F8 o₀) k o)).vuln).testBit d = true
    rcases Nat.lt_or_ge p k with hlt | hge
    · exact outerStep_mono n empty F8 o₀ k _ d (ih hlt)
    · have hpk : p = k := by omega
      subst hpk
      unfold outerStep
      rw [if_pos hemp]
      exact backupInner_sets n _ _ _ _ p _ d hd hdead hrev hdom

theorem outerFold_entries (n : Nat) (empty : Nat) (F8 : Nat → Nat × Nat)
    (o₀ : VOut) (k : Nat) (o : VOut) (e : Nat × Nat × Nat)
    (he : e ∈ (cellFold (outerStep n empty F8 o₀) k o).entries) :
    e ∈ o.entries ∨ ∃ p, p < k ∧ empty.testBit p = true ∧
      (F8 p).1.testBit e.1 = true ∧ e.1 < n ∧ e.2.1 = p ∧
      e.2.2 = mdiff (mdiff (F8 p).2 (1 <<< e.1)) (1 <<< p) ∧
      o₀.reversible.testBit e.1 = false ∧ o₀.dominated.testBit e.1 = false ∧
      o.vuln.testBit e.1 = false := by
  induction k with
  | zero => exact Or.inl he
  | succ k ih =>
    have he1 : e ∈ ((outerStep n empty F8 o₀ k
        (cellFold (outerStep n empty F8 o₀) k o)).entries) := he
    rw [outerStep] at he1
    by_cases hc : empty.testBit k = true
    · rw [if_pos hc] at he1
      rcases backupInner_entries n _ _ _ _ k _ e he1 with h | hnew
      · rcases ih h with h2 | ⟨p, h1, h2, h3, h4, h5, h6, h7, h8, h9⟩
        · exact Or.inl h2
        · exact Or.inr ⟨p, by omega, h2, h3, h4, h5, h6, h7, h8, h9⟩
      · obtain ⟨hlt, hdead, hkil, hcar, hrev, hdom, hnv⟩ := hnew
        refine Or.inr ⟨k, by omega, hc, hdead, hlt, hkil, hcar, hrev, hdom, ?_⟩
        rcases h : o.vuln.testBit e.1 with _ | _
        · rfl
        · have := cellFold_vuln_mono (outerStep n empty F8 o₀)
            (outerStep_mono n empty F8 o₀) k o e.1 h
          rw [this] at hnv
          exact absurd hnv (by simp)
    · rw [if_neg hc] at he1
      rcases ih he1 with h2 | ⟨p, h1, h2, h3, h4, h5, h6, h7, h8, h9⟩
      · exact Or.inl h2
      · exact Or.inr ⟨p, by omega, h2, h3, h4, h5, h6, h7, h8, h9⟩

theorem c8_backup_opponent_dead (n : Nat) (empty : Nat)
    (F8 : Nat → Nat × Nat) (o₀ : VOut) :
    (∀ p d, p < n → d < n → empty.testBit p = true →
        (F8 p).1.testBit d = true → o₀.reversible.testBit d = false →
        o₀.dominated.testBit d = false →
        ((backupOpponentDead n empty F8 o₀).vuln).testBit d = true) ∧
    (∀ e, e ∈ (backupOpponentDead n empty F8 o₀).entries →
        e ∈ o₀.entries ∨ ∃ p, p < n ∧ empty.testBit p = true ∧
          (F8 p).1.testBit e.1 = true ∧ e.1 < n ∧ e.2.1 = p ∧
          e.2.2 = mdiff (mdiff (F8 p).2 (1 <<< e.1)) (1 <<< p) ∧
          o₀.reversible.testBit e.1 = false ∧
          o₀.dominated.testBit e.1 = false ∧
          o₀.vuln.testBit e.1 = false) := by
  constructor
  · intro p d hp hd hemp hdead hrev hdom
    exact outerFold_sets n empty F8 o₀ n o₀ p d hp hemp hd hdead hrev hdom
  · intro e he
    exact outerFold_entries n empty F8 o₀ n o₀ e he

theorem c8_backup_opponent_dead_witness :
    ((backupOpponentDead 2 2 (fun _ => (1, 3)) ⟨0, 0, 0, []⟩).vuln).testBit 0 =
      true :=
  (c8_backup_opponent_dead 2 2 (fun _ => (1, 3)) ⟨0, 0, 0, []⟩).1 1 0
    (by decide) (by decide) (by decide) (by decide) (by decide) (by decide)


theorem landZeroBit {x y : Nat} (h : x &&& y = 0) (i : Nat) :
    (x.testBit i && y.testBit i) = false := by
  have hb := congrArg (fun t => t.testBit i) h
  simpa [Nat.testBit_land, Nat.zero_testBit] using hb

theorem landZero_of (x y : Nat)
    (h : ∀ i, (x.testBit i && y.testBit i) = false) : x &&& y = 0 := by
  apply Nat.eq_of_testBit_eq
  intro i
  rw [Nat.testBit_land, Nat.zero_testBit]
  exact h i

theorem subBit {x y : Nat} (h : x &&& y = x) {i : Nat}
    (hx : x.testBit i = true) : y.testBit i = true := by
  have hb := congrArg (fun t => t.testBit i) h
  simp only [Nat.testBit_land] at hb
  rw [hx] at hb
  rcases hy : y.testBit i with _ | _
  · rw [hy] at hb
    simpa using hb
  · rfl

theorem landSelf_of (x y : Nat)
    (h : ∀ i, x.testBit i = true → y.testBit i = true) : x &&& y = x := by
  apply Nat.eq_of_testBit_eq
  intro i
  rw [Nat.testBit_land]
  rcases hx : x.testBit i with _ | _
  · rfl
  · rw [h i hx]
    rfl

theorem subTrans {x y z : Nat} (h1 : x &&& y = x) (h2 : y &&& z = y) :
    x &&& z = x :=
  landSelf_of x z fun i hx => subBit h2 (subBit h1 hx)

theorem mdiff_eq_and (x y : Nat) : mdiff x y = x &&& (x ^^^ y) := by
  apply Nat.eq_of_testBit_eq
  intro i
  rw [testBit_mdiff, Nat.testBit_land, Nat.testBit_xor]
  rcases hx : x.testBit i <;> rcases hy : y.testBit i <;> rfl

theorem mdiff_le (x y : Nat) : mdiff x y ≤ x := by
  rw [mdiff_eq_and]
  exact Nat.and_le_left

theorem maxBit (m : Nat) (hm : m ≠ 0) :
    m.testBit m.log2 = true ∧ ∀ j, m.log2 < j → m.testBit j = false := by
  constructor
  · have h1 : 2 ^ m.log2 ≤ m := Nat.log2_self_le hm
    have h2 : m < 2 ^ (m.log2 + 1) := Nat.lt_log2_self
    rw [Nat.testBit_to_div_mod]
    have h3 : m / 2 ^ m.log2 = 1 := by
      have hlo : 1 ≤ m / 2 ^ m.log2 := (Nat.le_div_iff_mul_le (by positivity)).mpr (by omega)
      have hhi : m / 2 ^ m.log2 < 2 := by
        apply Nat.div_lt_of_lt_mul
        calc m < 2 ^ (m.log2 + 1) := h2
        _ = 2 ^ m.log2 * 2 := by ring
      omega
    rw [h3]
    decide
  · intro j hj
    apply Nat.testBit_eq_false_of_lt
    calc m < 2 ^ (m.log2 + 1) := Nat.lt_log2_self
    _ ≤ 2 ^ j := Nat.pow_le_pow_right (by norm_num) (by omega)

theorem mdiff_lt (E m : Nat) (hm : m ≠ 0) (hsub : m &&& E = m) :
    mdiff E m < E := by
  obtain ⟨hhi, habove⟩ := maxBit m hm
  apply Nat.lt_of_testBit m.log2
  · rw [testBit_mdiff, hhi]
    simp
  · exact subBit hsub hhi
  · intro j hj
    rw [testBit_mdiff, habove j hj]
    simp

theorem mdiff_zero_right (x : Nat) : mdiff x 0 = x := by
  unfold mdiff
  rw [Nat.and_zero, Nat.xor_zero]

theorem mdiff_sub (x y : Nat) : mdiff x y &&& x = mdiff x y :=
  landSelf_of _ _ fun i hx => by
    rw [testBit_mdiff] at hx
    rcases hxi : x.testBit i with _ | _
    · rw [hxi] at hx
      simpa using hx
    · rfl

theorem getEmpty_addColor (univ : Nat) (c : HColor) (m : Nat) (b : SB) :
    getEmpty univ (addColor c m b) = mdiff (getEmpty univ b) m := by
  cases c <;>
  · apply Nat.eq_of_testBit_eq
    intro i
    simp only [getEmpty, SB.stones, addColor, testBit_mdiff, Nat.testBit_lor]
    rcases h1 : univ.testBit i <;> rcases h2 : b.black.testBit i <;>
      rcases h3 : b.white.testBit i <;> rcases h4 : b.dead.testBit i <;>
      rcases h5 : m.testBit i <;> rfl

theorem getEmpty_addColorP (univ : Nat) (c : Bool) (m : Nat) (b : SB) :
    getEmpty univ (addColorP c m b) = mdiff (getEmpty univ b) m := by
  cases c <;> exact getEmpty_addColor univ _ m b

theorem addColor_hash (c : HColor) (m : Nat) (b : SB) :
    (addColor c m b).hash = b.hash := by
  cases c <;> rfl

theorem addColorP_hash (c : Bool) (m : Nat) (b : SB) :
    (addColorP c m b).hash = b.hash := by
  cases c <;> rfl

theorem invar_clear (univ : Nat) (b : SB) : Invar univ b InfC.clear := by
  refine ⟨?_, ?_, ?_, ?_, ?_, ?_, ?_, ?_, ?_⟩ <;>
    simp [InfC.clear, Nat.zero_and]

theorem invar_addDead (univ : Nat) (b : SB) (i : InfC) (m : Nat)
    (hI : Invar univ b i) (hm : m &&& getEmpty univ b = m) :
    Invar univ (addColor HColor.deadc m b) (i.addDead m) := by
  have hE := getEmpty_addColor univ HColor.deadc m b
  refine ⟨?_, ?_, ?_, ?_, ?_, ?_, ?_, ?_, ?_⟩ <;>
      simp only [InfC.addDead, hE]
  · apply landZero_of
    intro j
    have h1 := landZeroBit hI.dead_capB j
    have h2 := landZeroBit hI.capB_empty j
    rw [Nat.testBit_lor]
    rcases hmj : m.testBit j with _ | _
    · simp_all
    · have hEj := subBit hm hmj
      simp_all
  · apply landZero_of
    intro j
    have h1 := landZeroBit hI.dead_capW j
    have h2 := landZeroBit hI.capW_empty j
    rw [Nat.testBit_lor]
    rcases hmj : m.testBit j with _ | _
    · simp_all
    · have hEj := subBit hm hmj
      simp_all
  · exact hI.capB_capW
  · apply landZero_of
    intro j
    have h1 := landZeroBit hI.dead_empty j
    rw [Nat.testBit_lor, testBit_mdiff]
    rcases hmj : m.testBit j with _ | _ <;> simp_all
  · apply landZero_of
    intro j
    have h1 := landZeroBit hI.capB_empty j
    rw [testBit_mdiff]
    rcases hmj : m.testBit j with _ | _ <;> simp_all
  · apply landZero_of
    intro j
    have h1 := landZeroBit hI.capW_empty j
    rw [testBit_mdiff]
    rcases hmj : m.testBit j with _ | _ <;> simp_all
  · apply landSelf_of
    intro j hj
    rw [testBit_mdiff] at hj ⊢
    obtain ⟨hv, hnm⟩ : _ ∧ _ := by simpa using hj
    rw [subBit hI.vuln_empty hv]
    simp_all
  · apply landSelf_of
    intro j hj
    rw [testBit_mdiff] at hj ⊢
    obtain ⟨hv, hnm⟩ : _ ∧ _ := by simpa using hj
    rw [subBit hI.rev_empty hv]
    simp_all
  · apply landSelf_of
    intro j hj
    rw [testBit_mdiff] at hj ⊢
    obtain ⟨hv, hnm⟩ : _ ∧ _ := by simpa using hj
    rw [subBit hI.dom_empty hv]
    simp_all


theorem landZero_mdiff {x E : Nat} (h : x &&& E = 0) (m : Nat) :
    x &&& mdiff E m = 0 := by
  apply landZero_of
  intro j
  have h1 := landZeroBit h j
  rw [testBit_mdiff]
  rcases hx : x.testBit j <;> rcases hE : E.testBit j <;>
    rcases hm : m.testBit j <;> simp_all

theorem subSelf_mdiff {v E : Nat} (h : v &&& E = v) (m : Nat) :
    mdiff v m &&& mdiff E m = mdiff v m := by
  apply landSelf_of
  intro j hj
  rw [testBit_mdiff] at hj ⊢
  obtain ⟨hv, hnm⟩ : _ ∧ _ := by simpa using hj
  rw [subBit h hv]
  simp_all

theorem fillDisj {x E m : Nat} (hx : x &&& E = 0) (hm : m &&& E = m) :
    (x ||| m) &&& mdiff E m = 0 := by
  apply landZero_of
  intro j
  have h1 := landZeroBit hx j
  have h2 := congrArg (fun t => t.testBit j) hm
  simp only [Nat.testBit_land] at h2
  rw [Nat.testBit_lor, testBit_mdiff]
  rcases ha : x.testBit j <;> rcases hb : E.testBit j <;>
    rcases hc : m.testBit j <;> simp_all

theorem disjoint_lor_fill {x y E m : Nat} (hxy : x &&& y = 0)
    (hxE : x &&& E = 0) (hm : m &&& E = m) : x &&& (y ||| m) = 0 := by
  apply landZero_of
  intro j
  have h1 := landZeroBit hxy j
  have h2 := landZeroBit hxE j
  have h3 := congrArg (fun t => t.testBit j) hm
  simp only [Nat.testBit_land] at h3
  rw [Nat.testBit_lor]
  rcases ha : x.testBit j <;> rcases hb : y.testBit j <;>
    rcases hc : m.testBit j <;> rcases hd : E.testBit j <;> simp_all

theorem lor_fill_disjoint {x y E m : Nat} (hxy : x &&& y = 0)
    (hyE : y &&& E = 0) (hm : m &&& E = m) : (x ||| m) &&& y = 0 := by
  apply landZero_of
  intro j
  have h1 := landZeroBit hxy j
  have h2 := landZeroBit hyE j
  have h3 := congrArg (fun t => t.testBit j) hm
  simp only [Nat.testBit_land] at h3
  rw [Nat.testBit_lor]
  rcases ha : x.testBit j <;> rcases hb : y.testBit j <;>
    rcases hc : m.testBit j <;> rcases hd : E.testBit j <;> simp_all

theorem lorSelf {v m E : Nat} (hv : v &&& E = v) (hm : m &&& E = m) :
    (v ||| m) &&& E = v ||| m := by
  apply landSelf_of
  intro j hj
  rw [Nat.testBit_lor] at hj
  rcases ha : v.testBit j with _ | _
  · rw [ha] at hj
    simp only [Bool.false_or] at hj
    exact subBit hm hj
  · exact subBit hv ha

theorem invar_fill_capB (univ : Nat) (b : SB) (i : InfC) (m : Nat)
    (hI : Invar univ b i) (hm : m &&& getEmpty univ b = m) :
    Invar univ (addColorP true m b)
      { i with
        capB := i.capB ||| m
        vuln := mdiff i.vuln m
        reversible := mdiff i.reversible m
        dominated := mdiff i.dominated m } := by
  have hE : getEmpty univ (addColorP true m b) = mdiff (getEmpty univ b) m :=
    getEmpty_addColorP univ true m b
  refine ⟨?_, ?_, ?_, ?_, ?_, ?_, ?_, ?_, ?_⟩
  · exact disjoint_lor_fill hI.dead_capB hI.dead_empty hm
  · exact hI.dead_capW
  · exact lor_fill_disjoint hI.capB_capW hI.capW_empty hm
  · show i.dead &&& getEmpty univ (addColorP true m b) = 0
    rw [hE]
    exact landZero_mdiff hI.dead_empty m
  · show (i.capB ||| m) &&& getEmpty univ (addColorP true m b) = 0
    rw [hE]
    exact fillDisj hI.capB_empty hm
  · show i.capW &&& getEmpty univ (addColorP true m b) = 0
    rw [hE]
    exact landZero_mdiff hI.capW_empty m
  · show mdiff i.vuln m &&& getEmpty univ (addColorP true m b) = mdiff i.vuln m
    rw [hE]
    exact subSelf_mdiff hI.vuln_empty m
  · show mdiff i.reversible m &&& getEmpty univ (addColorP true m b) =
      mdiff i.reversible m
    rw [hE]
    exact subSelf_mdiff hI.rev_empty m
  · show mdiff i.dominated m &&& getEmpty univ (addColorP true m b) =
      mdiff i.dominated m
    rw [hE]
    exact subSelf_mdiff hI.dom_empty m

theorem invar_fill_capW (univ : Nat) (b : SB) (i : InfC) (m : Nat)
    (hI : Invar univ b i) (hm : m &&& getEmpty univ b = m) :
    Invar univ (addColorP false m b)
      { i with
        capW := i.capW ||| m
        vuln := mdiff i.vuln m
        reversible := mdiff i.reversible m
        dominated := mdiff i.dominated m } := by
  have hE : getEmpty univ (addColorP false m b) = mdiff (getEmpty univ b) m :=
    getEmpty_addColorP univ false m b
  refine ⟨?_, ?_, ?_, ?_, ?_, ?_, ?_, ?_, ?_⟩
  · exact hI.dead_capB
  · exact disjoint_lor_fill hI.dead_capW hI.dead_empty hm
  · exact disjoint_lor_fill hI.capB_capW hI.capB_empty hm
  · show i.dead &&& getEmpty univ (addColorP false m b) = 0
    rw [hE]
    exact landZero_mdiff hI.dead_empty m
  · show i.capB &&& getEmpty univ (addColorP false m b) = 0
    rw [hE]
    exact landZero_mdiff hI.capB_empty m
  · show (i.capW ||| m) &&& getEmpty univ (addColorP false m b) = 0
    rw [hE]
    exact fillDisj hI.capW_empty hm
  · show mdiff i.vuln m &&& getEmpty univ (addColorP false m b) = mdiff i.vuln m
    rw [hE]
    exact subSelf_mdiff hI.vuln_empty m
  · show mdiff i.reversible m &&& getEmpty univ (addColorP false m b) =
      mdiff i.reversible m
    rw [hE]
    exact subSelf_mdiff hI.rev_empty m
  · show mdiff i.dominated m &&& getEmpty univ (addColorP false m b) =
      mdiff i.dominated m
    rw [hE]
    exact subSelf_mdiff hI.dom_empty m

theorem invar_addCaptured (univ : Nat) (b : SB) (i : InfC) (c : Bool) (m : Nat)
    (hI : Invar univ b i) (hm : m &&& getEmpty univ b = m) :
    Invar univ (addColorP c m b) (i.addCaptured c m) := by
  cases c
  · exact invar_fill_capW univ b i m hI hm
  · exact invar_fill_capB univ b i m hI hm

theorem invar_fill_perm (univ : Nat) (b : SB) (i : InfC) (c : Bool) (m : Nat)
    (hI : Invar univ b i) (hm : m &&& getEmpty univ b = m) :
    Invar univ (addColorP c m b) (i.addPermInf c m) := by
  have hE : getEmpty univ (addColorP c m b) = mdiff (getEmpty univ b) m :=
    getEmpty_addColorP univ c m b
  have hmain : ∀ i' : InfC, i'.dead = i.dead → i'.capB = i.capB →
      i'.capW = i.capW → i'.vuln = mdiff i.vuln m →
      i'.reversible = mdiff i.reversible m →
      i'.dominated = mdiff i.dominated m →
      Invar univ (addColorP c m b) i' := by
    intro i' h1 h2 h3 h4 h5 h6
    refine ⟨?_, ?_, ?_, ?_, ?_, ?_, ?_, ?_, ?_⟩ <;>
      simp only [h1, h2, h3, h4, h5, h6, hE]
    · exact hI.dead_capB
    · exact hI.dead_capW
    · exact hI.capB_capW
    · exact landZero_mdiff hI.dead_empty m
    · exact landZero_mdiff hI.capB_empty m
    · exact landZero_mdiff hI.capW_empty m
    · exact subSelf_mdiff hI.vuln_empty m
    · exact subSelf_mdiff hI.rev_empty m
    · exact subSelf_mdiff hI.dom_empty m
  cases c
  · exact hmain _ rfl rfl rfl rfl rfl rfl
  · exact hmain _ rfl rfl rfl rfl rfl rfl

theorem invar_clearVulnerable (univ : Nat) (b : SB) (i : InfC)
    (hI : Invar univ b i) : Invar univ b i.clearVulnerable :=
  ⟨hI.dead_capB, hI.dead_capW, hI.capB_capW, hI.dead_empty, hI.capB_empty,
   hI.capW_empty, Nat.zero_and _, hI.rev_empty, hI.dom_empty⟩

theorem invar_addVulnerable (univ : Nat) (b : SB) (i : InfC) (m : Nat)
    (hI : Invar univ b i) (hm : m &&& getEmpty univ b = m) :
    Invar univ b (i.addVulnerable m) :=
  ⟨hI.dead_capB, hI.dead_capW, hI.capB_capW, hI.dead_empty, hI.capB_empty,
   hI.capW_empty, lorSelf hI.vuln_empty hm, hI.rev_empty, hI.dom_empty⟩

theorem invar_addReversible (univ : Nat) (b : SB) (i : InfC) (m : Nat)
    (hI : Invar univ b i) (hm : m &&& getEmpty univ b = m) :
    Invar univ b (i.addReversible m) :=
  ⟨hI.dead_capB, hI.dead_capW, hI.capB_capW, hI.dead_empty, hI.capB_empty,
   hI.capW_empty, hI.vuln_empty, lorSelf hI.rev_empty hm, hI.dom_empty⟩

theorem invar_addDominated (univ : Nat) (b : SB) (i : InfC) (m : Nat)
    (hI : Invar univ b i) (hm : m &&& getEmpty univ b = m) :
    Invar univ b (i.addDominated m) :=
  ⟨hI.dead_capB, hI.dead_capW, hI.capB_capW, hI.dead_empty, hI.capB_empty,
   hI.capW_empty, hI.vuln_empty, hI.rev_empty, lorSelf hI.dom_empty hm⟩


theorem deadLoop_spec (F : Finders) (univ : Nat) (hS : Sound univ F) :
    ∀ fuel b i acc, getEmpty univ b < fuel → Invar univ b i →
    ∃ b' i' acc', deadLoop F univ fuel b i acc = some (b', i', acc') ∧
      Invar univ b' i' ∧ b'.hash = b.hash ∧
      getEmpty univ b' ≤ getEmpty univ b ∧
      ((b' = b ∧ i' = i ∧ acc' = acc) ∨
        getEmpty univ b' < getEmpty univ b) := by
  intro fuel
  induction fuel with
  | zero =>
    intro b i acc h
    omega
  | succ fuel ih =>
    intro b i acc hfuel hI
    by_cases hd : F.findDead b (getEmpty univ b) = 0
    · refine ⟨b, i, acc, ?_, hI, rfl, Nat.le_refl _, Or.inl ⟨rfl, rfl, rfl⟩⟩
      show (if F.findDead b (getEmpty univ b) = 0 then _ else _) = _
      rw [if_pos hd]
    · have hsub := hS.findDead_sub b (getEmpty univ b)
      have hE1 : getEmpty univ (addColor HColor.deadc
          (F.findDead b (getEmpty univ b)) b) =
          mdiff (getEmpty univ b) (F.findDead b (getEmpty univ b)) :=
        getEmpty_addColor univ _ _ b
      have hlt : getEmpty univ (addColor HColor.deadc
          (F.findDead b (getEmpty univ b)) b) < getEmpty univ b := by
        rw [hE1]
        exact mdiff_lt _ _ hd hsub
      obtain ⟨b', i', acc', heq, hI', hh, hle, _⟩ :=
        ih (addColor HColor.deadc (F.findDead b (getEmpty univ b)) b)
          (i.addDead (F.findDead b (getEmpty univ b)))
          (acc ||| F.findDead b (getEmpty univ b)) (by omega)
          (invar_addDead univ b i _ hI hsub)
      refine ⟨b', i', acc', ?_, hI', ?_, by omega, Or.inr (by omega)⟩
      · show (if F.findDead b (getEmpty univ b) = 0 then _ else _) = _
        rw [if_neg hd]
        exact heq
      · rw [hh, addColor_hash]

theorem dcLoop_spec (F : Finders) (univ : Nat) (hS : Sound univ F) :
    ∀ fuel b i acc, getEmpty univ b < fuel → Invar univ b i →
    ∃ b' i' acc', dcLoop F univ fuel b i acc = some (b', i', acc') ∧
      Invar univ b' i' ∧ b'.hash = b.hash ∧
      getEmpty univ b' ≤ getEmpty univ b ∧
      ((b' = b ∧ i' = i ∧ acc' = acc) ∨
        getEmpty univ b' < getEmpty univ b) := by
  intro fuel
  induction fuel with
  | zero =>
    intro b i acc h
    omega
  | succ fuel ih =>
    intro b i acc hfuel hI
    obtain ⟨b1, i1, acc1, hdl, hI1, hh1, hle1, hdisj1⟩ :=
      deadLoop_spec F univ hS (getEmpty univ b + 1) b i acc
        (Nat.lt_succ_self _) hI
    have hstep : dcLoop F univ (fuel+1) b i acc =
        (match deadLoop F univ (getEmpty univ b + 1) b i acc with
        | none => none
        | some (b1, i1, acc1) =>
          let black := F.findCaptured true b1 (getEmpty univ b1)
          if black ≠ 0 then
            dcLoop F univ fuel (addColorP true black b1)
              (i1.addCaptured true black) (acc1 ||| black)
          else
            let white := F.findCaptured false b1 (getEmpty univ b1)
            if white ≠ 0 then
              dcLoop F univ fuel (addColorP false white b1)
                (i1.addCaptured false white) (acc1 ||| white)
            else some (b1, i1, acc1)) := rfl
    rw [hstep, hdl]
    by_cases hbk : F.findCaptured true b1 (getEmpty univ b1) = 0
    · by_cases hwt : F.findCaptured false b1 (getEmpty univ b1) = 0
      · refine ⟨b1, i1, acc1, ?_, hI1, hh1, hle1, hdisj1⟩
        show (if F.findCaptured true b1 (getEmpty univ b1) ≠ 0 then _
          else if F.findCaptured false b1 (getEmpty univ b1) ≠ 0 then _
          else _) = _
        rw [if_neg (by omega), if_neg (by omega)]
      · have hsub := hS.findCaptured_sub false b1 (getEmpty univ b1)
        have hE2 : getEmpty univ (addColorP false
            (F.findCaptured false b1 (getEmpty univ b1)) b1) =
            mdiff (getEmpty univ b1)
              (F.findCaptured false b1 (getEmpty univ b1)) :=
          getEmpty_addColorP univ _ _ b1
        have hlt2 : getEmpty univ (addColorP false
            (F.findCaptured false b1 (getEmpty univ b1)) b1) <
            getEmpty univ b1 := by
          rw [hE2]
          exact mdiff_lt _ _ hwt hsub
        obtain ⟨b', i', acc', heq, hI', hh, hle, _⟩ :=
          ih (addColorP false (F.findCaptured false b1 (getEmpty univ b1)) b1)
            (i1.addCaptured false (F.findCaptured false b1 (getEmpty univ b1)))
            (acc1 ||| F.findCaptured false b1 (getEmpty univ b1)) (by omega)
            (invar_addCaptured univ b1 i1 false _ hI1 hsub)
        refine ⟨b', i', acc', ?_, hI', ?_, by omega, Or.inr (by omega)⟩
        · show (if F.findCaptured true b1 (getEmpty univ b1) ≠ 0 then _
            else if F.findCaptured false b1 (getEmpty univ b1) ≠ 0 then _
            else _) = _
          rw [if_neg (by omega), if_pos hwt]
          exact heq
        · rw [hh, addColorP_hash, hh1]
    · have hsub := hS.findCaptured_sub true b1 (getEmpty univ b1)
      have hE2 : getEmpty univ (addColorP true
          (F.findCaptured true b1 (getEmpty univ b1)) b1) =
          mdiff (getEmpty univ b1)
            (F.findCaptured true b1 (getEmpty univ b1)) :=
        getEmpty_addColorP univ _ _ b1
      have hlt2 : getEmpty univ (addColorP true
          (F.findCaptured true b1 (getEmpty univ b1)) b1) <
          getEmpty univ b1 := by
        rw [hE2]
        exact mdiff_lt _ _ hbk hsub
      obtain ⟨b', i', acc', heq, hI', hh, hle, _⟩ :=
        ih (addColorP true (F.findCaptured true b1 (getEmpty univ b1)) b1)
          (i1.addCaptured true (F.findCaptured true b1 (getEmpty univ b1)))
          (acc1 ||| F.findCaptured true b1 (getEmpty univ b1)) (by omega)
          (invar_addCaptured univ b1 i1 true _ hI1 hsub)
      refine ⟨b', i', acc', ?_, hI', ?_, by omega, Or.inr (by omega)⟩
      · show (if F.findCaptured true b1 (getEmpty univ b1) ≠ 0 then _
          else _) = _
        rw [if_pos hbk]
        exact heq
      · rw [hh, addColorP_hash, hh1]

theorem cdc_spec (F : Finders) (univ : Nat) (hS : Sound univ F) (b : SB)
    (i : InfC) (hI : Invar univ b i) :
    ∃ b' i' c', computeDeadCaptured F univ b i = some (b', i', c') ∧
      Invar univ b' i' ∧ b'.hash = b.hash ∧
      getEmpty univ b' ≤ getEmpty univ b ∧
      (c' ≠ 0 → getEmpty univ b' < getEmpty univ b) := by
  obtain ⟨b', i', c', heq, hI', hh, hle, hdisj⟩ :=
    dcLoop_spec F univ hS (getEmpty univ b + 1) b i 0 (Nat.lt_succ_self _) hI
  refine ⟨b', i', c', heq, hI', hh, hle, ?_⟩
  intro hc
  rcases hdisj with ⟨_, _, hc0⟩ | hlt
  · exact absurd hc0 hc
  · exact hlt

theorem fpi_spec (F : Finders) (univ : Nat) (hS : Sound univ F)
    (fp color : Bool) (b : SB) (i : InfC) (hI : Invar univ b i)
    (b' : SB) (i' : InfC) (c' : Nat)
    (heq : fillinPermanentlyInferior F univ fp color b i = (b', i', c')) :
    Invar univ b' i' ∧ b'.hash = b.hash ∧
      getEmpty univ b' ≤ getEmpty univ b ∧
      (c' ≠ 0 → getEmpty univ b' < getEmpty univ b) := by
  unfold fillinPermanentlyInferior at heq
  rcases fp with _ | _
  · rw [if_neg (by simp)] at heq
    simp only [Prod.mk.injEq] at heq
    obtain ⟨h1, h2, h3⟩ := heq
    subst h1
    subst h2
    subst h3
    exact ⟨hI, rfl, Nat.le_refl _, fun hc => absurd rfl hc⟩
  · rw [if_pos rfl] at heq
    by_cases hp : F.findPermInf color b (getEmpty univ b) = 0
    · rw [if_neg (by omega)] at heq
      simp only [Prod.mk.injEq] at heq
      obtain ⟨h1, h2, h3⟩ := heq
      subst h1
      subst h2
      subst h3
      exact ⟨hI, rfl, Nat.le_refl _, fun hc => absurd rfl hc⟩
    · rw [if_pos hp] at heq
      simp only [Prod.mk.injEq] at heq
      obtain ⟨h1, h2, h3⟩ := heq
      subst h1
      subst h2
      subst h3
      have hsub := hS.findPermInf_sub color b (getEmpty univ b)
      have hE : getEmpty univ (addColorP color
          (F.findPermInf color b (getEmpty univ b)) b) =
          mdiff (getEmpty univ b) (F.findPermInf color b (getEmpty univ b)) :=
        getEmpty_addColorP univ _ _ b
      refine ⟨invar_fill_perm univ b i color _ hI hsub, addColorP_hash _ _ _,
        ?_, ?_⟩
      · rw [hE]
        exact mdiff_le _ _
      · intro _
        rw [hE]
        exact mdiff_lt _ _ hp hsub

theorem fiv_spec (F : Finders) (univ : Nat) (hS : Sound univ F)
    (color : Bool) (b : SB) (i : InfC) (hI : Invar univ b i)
    (b' : SB) (i' : InfC) (c' : Nat)
    (heq : fillInVulnerable F univ color b i = (b', i', c')) :
    Invar univ b' i' ∧ b'.hash = b.hash ∧
      getEmpty univ b' ≤ getEmpty univ b ∧
      (c' ≠ 0 → getEmpty univ b' < getEmpty univ b) := by
  unfold fillInVulnerable at heq
  dsimp only at heq
  set b1 := addColor HColor.deadc (F.graphDead color b) b with hb1
  set i1 := ((i.clearVulnerable).addVulnerable (F.graphVuln color b)).addDead
    (F.graphDead color b) with hi1
  set i2 := i1.addVulnerable
    (F.findVulnerable color b1 (mdiff (getEmpty univ b1) i1.dead)) with hi2
  set capt := F.presimplicial b1 i2.vuln with hcapt
  have hI1 : Invar univ b1 i1 :=
    invar_addDead univ b _ _
      (invar_addVulnerable univ b _ _ (invar_clearVulnerable univ b i hI)
        (hS.graphVuln_sub color b))
      (hS.graphDead_sub color b)
  have hE1 : getEmpty univ b1 = mdiff (getEmpty univ b) (F.graphDead color b) :=
    getEmpty_addColor univ _ _ b
  have hle1 : getEmpty univ b1 ≤ getEmpty univ b := by
    rw [hE1]
    exact mdiff_le _ _
  have hh1 : b1.hash = b.hash := addColor_hash _ _ _
  have hI2 : Invar univ b1 i2 :=
    invar_addVulnerable univ _ _ _ hI1
      (subTrans (hS.findVulnerable_sub _ _ _) (mdiff_sub _ _))
  have hsubcap : capt &&& getEmpty univ b1 = capt :=
    subTrans (hS.presimplicial_sub b1 i2.vuln) hI2.vuln_empty
  split at heq
  · rename_i hcz
    simp only [Prod.mk.injEq] at heq
    obtain ⟨h1, h2, h3⟩ := heq
    subst h1
    subst h2
    subst h3
    have hE2 : getEmpty univ (addColorP (!color) capt b1) =
        mdiff (getEmpty univ b1) capt := getEmpty_addColorP univ (!color) capt b1
    refine ⟨invar_addCaptured univ b1 i2 (!color) capt hI2 hsubcap, ?_, ?_, ?_⟩
    · rw [addColorP_hash, hh1]
    · rw [hE2]
      calc mdiff (getEmpty univ b1) capt ≤ getEmpty univ b1 := mdiff_le _ _
      _ ≤ getEmpty univ b := hle1
    · intro _
      rw [hE2]
      calc mdiff (getEmpty univ b1) capt < getEmpty univ b1 :=
        mdiff_lt _ _ hcz hsubcap
      _ ≤ getEmpty univ b := hle1
  · simp only [Prod.mk.injEq] at heq
    obtain ⟨h1, h2, h3⟩ := heq
    subst h1
    subst h2
    subst h3
    exact ⟨hI2, hh1, hle1, fun hc => absurd rfl hc⟩

theorem fiu_spec (F : Finders) (univ : Nat) (hS : Sound univ F)
    (b : SB) (i : InfC) (hI : Invar univ b i)
    (b' : SB) (i' : InfC) (c' : Nat)
    (heq : fillInUnreachable F univ b i = (b', i', c')) :
    Invar univ b' i' ∧ b'.hash = b.hash ∧
      getEmpty univ b' ≤ getEmpty univ b ∧
      (c' ≠ 0 → getEmpty univ b' < getEmpty univ b) := by
  unfold fillInUnreachable at heq
  by_cases hnr : F.unreachable b = 0
  · rw [if_neg (by omega)] at heq
    simp only [Prod.mk.injEq] at heq
    obtain ⟨h1, h2, h3⟩ := heq
    subst h1
    subst h2
    subst h3
    exact ⟨hI, rfl, Nat.le_refl _, fun hc => absurd rfl hc⟩
  · rw [if_pos hnr] at heq
    simp only [Prod.mk.injEq] at heq
    obtain ⟨h1, h2, h3⟩ := heq
    subst h1
    subst h2
    subst h3
    have hsub := hS.unreachable_sub b
    have hE : getEmpty univ (addColor HColor.deadc (F.unreachable b) b) =
        mdiff (getEmpty univ b) (F.unreachable b) :=
      getEmpty_addColor univ _ _ b
    refine ⟨invar_addDead univ b i _ hI hsub, addColor_hash _ _ _, ?_, ?_⟩
    · rw [hE]
      exact mdiff_le _ _
    · intro _
      rw [hE]
      exact mdiff_lt _ _ hnr hsub


theorem cfLoop_spec (F : Finders) (univ : Nat) (hS : Sound univ F)
    (fp fi color : Bool) :
    ∀ fuel b i, getEmpty univ b < fuel → Invar univ b i →
    ∃ b' i', cfLoop F univ fp fi color fuel b i = some (b', i') ∧
      Invar univ b' i' ∧ b'.hash = b.hash ∧
      getEmpty univ b' ≤ getEmpty univ b := by
  intro fuel
  induction fuel with
  | zero =>
    intro b i h
    omega
  | succ fuel ih =>
    intro b i hfuel hI
    obtain ⟨b1, i1, c1, hdc, hI1, hh1, hle1, hst1⟩ := cdc_spec F univ hS b i hI
    rcases hr2 : fillinPermanentlyInferior F univ fp color b1 i1 with ⟨b2, i2, c2⟩
    obtain ⟨hI2, hh2, hle2, hst2⟩ :=
      fpi_spec F univ hS fp color b1 i1 hI1 b2 i2 c2 hr2
    rcases hr3 : fillinPermanentlyInferior F univ fp (!color) b2 i2
      with ⟨b3, i3, c3⟩
    obtain ⟨hI3, hh3, hle3, hst3⟩ :=
      fpi_spec F univ hS fp (!color) b2 i2 hI2 b3 i3 c3 hr3
    rcases hr4 : fillInVulnerable F univ (!color) b3 i3 with ⟨b4, i4, c4⟩
    obtain ⟨hI4, hh4, hle4, hst4⟩ :=
      fiv_spec F univ hS (!color) b3 i3 hI3 b4 i4 c4 hr4
    rcases hr5 : fillInVulnerable F univ color b4 i4 with ⟨b5, i5, c5⟩
    obtain ⟨hI5, hh5, hle5, hst5⟩ :=
      fiv_spec F univ hS color b4 i4 hI4 b5 i5 c5 hr5
    rcases hr6 : (if fi then fillInUnreachable F univ b5 i5 else (b5, i5, 0))
      with ⟨b6, i6, c6⟩
    have hspec6 : Invar univ b6 i6 ∧ b6.hash = b5.hash ∧
        getEmpty univ b6 ≤ getEmpty univ b5 ∧
        (c6 ≠ 0 → getEmpty univ b6 < getEmpty univ b5) := by
      cases fi
      · simp only [Bool.false_eq_true, if_false] at hr6
        simp only [Prod.mk.injEq] at hr6
        obtain ⟨h1, h2, h3⟩ := hr6
        subst h1
        subst h2
        subst h3
        exact ⟨hI5, rfl, Nat.le_refl _, fun hc => absurd rfl hc⟩
      · simp only [if_true] at hr6
        exact fiu_spec F univ hS b5 i5 hI5 b6 i6 c6 hr6
    obtain ⟨hI6, hh6, hle6, hst6⟩ := hspec6
    have hstep : cfLoop F univ fp fi color (fuel+1) b i =
        (match computeDeadCaptured F univ b i with
        | none => none
        | some (b1, i1, c1) =>
          let r2 := fillinPermanentlyInferior F univ fp color b1 i1
          let r3 := fillinPermanentlyInferior F univ fp (!color) r2.1 r2.2.1
          let r4 := fillInVulnerable F univ (!color) r3.1 r3.2.1
          let r5 := fillInVulnerable F univ color r4.1 r4.2.1
          let r6 := if fi then fillInUnreachable F univ r5.1 r5.2.1
            else (r5.1, r5.2.1, 0)
          if c1 ||| r2.2.2 ||| r3.2.2 ||| r4.2.2 ||| r5.2.2 ||| r6.2.2 = 0 then
            some (r6.1, r6.2.1)
          else cfLoop F univ fp fi color fuel r6.1 r6.2.1) := rfl
    rw [hstep, hdc]
    dsimp only
    rw [hr2]
    dsimp only
    rw [hr3]
    dsimp only
    rw [hr4]
    dsimp only
    rw [hr5]
    dsimp only
    rw [hr6]
    dsimp only
    by_cases hz : c1 ||| c2 ||| c3 ||| c4 ||| c5 ||| c6 = 0
    · rw [if_pos hz]
      exact ⟨b6, i6, rfl, hI6,
        by rw [hh6, hh5, hh4, hh3, hh2, hh1], by omega⟩
    · rw [if_neg hz]
      have hstrict : getEmpty univ b6 < getEmpty univ b := by
        by_cases h1 : c1 = 0
        · by_cases h2 : c2 = 0
          · by_cases h3 : c3 = 0
            · by_cases h4 : c4 = 0
              · by_cases h5 : c5 = 0
                · by_cases h6 : c6 = 0
                  · exfalso
                    apply hz
                    rw [h1, h2, h3, h4, h5, h6]
                    simp
                  · have := hst6 h6
                    omega
                · have := hst5 h5
                  omega
              · have := hst4 h4
                omega
            · have := hst3 h3
              omega
          · have := hst2 h2
            omega
        · have := hst1 h1
          omega
      obtain ⟨b', i', heq, hI', hh', hle'⟩ := ih b6 i6 (by omega) hI6
      exact ⟨b', i', heq, hI',
        by rw [hh', hh6, hh5, hh4, hh3, hh2, hh1], by omega⟩

theorem computeFillin_spec (F : Finders) (univ : Nat) (hS : Sound univ F)
    (fp fi color : Bool) (b : SB) (out₀ : InfC) :
    ∃ b' i', computeFillin F univ fp fi color b out₀ = some (b', i') ∧
      Invar univ b' i' ∧ b'.hash = b.hash ∧
      getEmpty univ b' ≤ getEmpty univ b := by
  obtain ⟨b1, i1, hcf, hI1, hh1, hle1⟩ :=
    cfLoop_spec F univ hS fp fi color (getEmpty univ b + 1) b InfC.clear
      (Nat.lt_succ_self _) (invar_clear univ b)
  have hstep : computeFillin F univ fp fi color b out₀ =
      (match cfLoop F univ fp fi color (getEmpty univ b + 1) b InfC.clear with
      | none => none
      | some (b1, i1) =>
        if fi then some (b1, i1)
        else
          let r := fillInUnreachable F univ b1 i1
          some (r.1, r.2.1)) := rfl
  rw [hstep, hcf]
  dsimp only
  cases fi
  · rw [if_neg (by simp)]
    rcases hr : fillInUnreachable F univ b1 i1 with ⟨b2, i2, c2⟩
    obtain ⟨hI2, hh2, hle2, _⟩ := fiu_spec F univ hS b1 i1 hI1 b2 i2 c2 hr
    exact ⟨b2, i2, rfl, hI2, by rw [hh2, hh1], by omega⟩
  · rw [if_pos rfl]
    exact ⟨b1, i1, rfl, hI1, hh1, hle1⟩

theorem addColor_zero (c : HColor) (b : SB) : addColor c 0 b = b := by
  cases c <;> simp [addColor, Nat.or_zero]

theorem addDead_zero (i : InfC) : i.addDead 0 = i := by
  simp [InfC.addDead, Nat.or_zero, mdiff_zero_right]

theorem addVulnerable_zero (i : InfC) : i.addVulnerable 0 = i := by
  simp [InfC.addVulnerable, Nat.or_zero]

theorem clearVuln_clear : InfC.clear.clearVulnerable = InfC.clear := rfl

theorem noFinds_deadLoop (F : Finders) (univ : Nat) (hN : NoFinds F)
    (b : SB) (i : InfC) (acc : Nat) :
    deadLoop F univ (getEmpty univ b + 1) b i acc = some (b, i, acc) := by
  show (if F.findDead b (getEmpty univ b) = 0 then _ else _) = _
  rw [hN.findDead0, if_pos rfl]

theorem noFinds_cdc (F : Finders) (univ : Nat) (hN : NoFinds F)
    (b : SB) (i : InfC) : computeDeadCaptured F univ b i = some (b, i, 0) := by
  unfold computeDeadCaptured
  have hstep : dcLoop F univ (getEmpty univ b + 1) b i 0 =
      (match deadLoop F univ (getEmpty univ b + 1) b i 0 with
      | none => none
      | some (b1, i1, acc1) =>
        let black := F.findCaptured true b1 (getEmpty univ b1)
        if black ≠ 0 then
          dcLoop F univ (getEmpty univ b) (addColorP true black b1)
            (i1.addCaptured true black) (acc1 ||| black)
        else
          let white := F.findCaptured false b1 (getEmpty univ b1)
          if white ≠ 0 then
            dcLoop F univ (getEmpty univ b) (addColorP false white b1)
              (i1.addCaptured false white) (acc1 ||| white)
          else some (b1, i1, acc1)) := rfl
  rw [hstep, noFinds_deadLoop F univ hN b i 0]
  dsimp only
  simp [hN.findCaptured0]

theorem noFinds_fpi (F : Finders) (univ : Nat) (hN : NoFinds F)
    (fp color : Bool) (b : SB) (i : InfC) :
    fillinPermanentlyInferior F univ fp color b i = (b, i, 0) := by
  unfold fillinPermanentlyInferior
  cases fp <;> simp [hN.findPermInf0]

theorem noFinds_fiv (F : Finders) (univ : Nat) (hN : NoFinds F)
    (color : Bool) (b : SB) (i : InfC) :
    fillInVulnerable F univ color b i = (b, i.clearVulnerable, 0) := by
  unfold fillInVulnerable
  simp [hN.graphDead0, hN.graphVuln0, hN.findVulnerable0, hN.presimplicial0,
    addColor_zero, addDead_zero, addVulnerable_zero]

theorem noFinds_fiu (F : Finders) (univ : Nat) (hN : NoFinds F)
    (b : SB) (i : InfC) : fillInUnreachable F univ b i = (b, i, 0) := by
  unfold fillInUnreachable
  simp [hN.unreachable0]

theorem noFinds_computeFillin (F : Finders) (univ : Nat) (hN : NoFinds F)
    (fp fi color : Bool) (b : SB) (out₀ : InfC) :
    computeFillin F univ fp fi color b out₀ = some (b, InfC.clear) := by
  have hcl : cfLoop F univ fp fi color (getEmpty univ b + 1) b InfC.clear =
      some (b, InfC.clear) := by
    have hstep : cfLoop F univ fp fi color (getEmpty univ b + 1) b InfC.clear =
        (match computeDeadCaptured F univ b InfC.clear with
        | none => none
        | some (b1, i1, c1) =>
          let r2 := fillinPermanentlyInferior F univ fp color b1 i1
          let r3 := fillinPermanentlyInferior F univ fp (!color) r2.1 r2.2.1
          let r4 := fillInVulnerable F univ (!color) r3.1 r3.2.1
          let r5 := fillInVulnerable F univ color r4.1 r4.2.1
          let r6 := if fi then fillInUnreachable F univ r5.1 r5.2.1
            else (r5.1, r5.2.1, 0)
          if c1 ||| r2.2.2 ||| r3.2.2 ||| r4.2.2 ||| r5.2.2 ||| r6.2.2 = 0 then
            some (r6.1, r6.2.1)
          else cfLoop F univ fp fi color (getEmpty univ b) r6.1 r6.2.1) := rfl
    rw [hstep, noFinds_cdc F univ hN b InfC.clear]
    dsimp only
    rw [noFinds_fpi F univ hN fp color b InfC.clear]
    dsimp only
    rw [noFinds_fpi F univ hN fp (!color) b InfC.clear]
    dsimp only
    rw [noFinds_fiv F univ hN (!color) b InfC.clear]
    dsimp only
    rw [clearVuln_clear, noFinds_fiv F univ hN color b InfC.clear,
      clearVuln_clear]
    dsimp only
    cases fi <;> simp [noFinds_fiu F univ hN b InfC.clear]
  have hstep2 : computeFillin F univ fp fi color b out₀ =
      (match cfLoop F univ fp fi color (getEmpty univ b + 1) b InfC.clear with
      | none => none
      | some (b1, i1) =>
        if fi then some (b1, i1)
        else
          let r := fillInUnreachable F univ b1 i1
          some (r.1, r.2.1)) := rfl
  rw [hstep2, hcl]
  dsimp only
  cases fi <;> simp [noFinds_fiu F univ hN b InfC.clear]

theorem zeroFinders_sound (univ : Nat) : Sound univ zeroFinders :=
  ⟨fun _ _ => Nat.zero_and _, fun _ _ _ => Nat.zero_and _,
   fun _ _ _ => Nat.zero_and _, fun _ _ => Nat.zero_and _,
   fun _ _ => Nat.zero_and _, fun _ _ _ => Nat.zero_and _,
   fun _ _ => Nat.zero_and _, fun _ => Nat.zero_and _,
   fun _ _ _ => Nat.zero_and _, fun _ _ _ => Nat.zero_and _,
   fun _ _ _ => Nat.zero_and _⟩

theorem zeroFinders_noFinds : NoFinds zeroFinders :=
  ⟨fun _ _ => rfl, fun _ _ _ => rfl, fun _ _ _ => rfl, fun _ _ => rfl,
   fun _ _ => rfl, fun _ _ _ => rfl, fun _ _ => rfl, fun _ => rfl⟩

/-- C9: ICE never fails: for sound finders `ComputeFillin` always
returns (the accumulator is cleared on entry: the result is built from
the cleared accumulator whatever `out₀` holds), and when no
simplifications are found the board is unchanged and the accumulator is
exactly the cleared one. -/
theorem c9_compute_fillin_never_fails (F : Finders) (univ : Nat)
    (fp fi color : Bool) (b : SB) (out₀ : InfC) (hS : Sound univ F) :
    ∃ b' i', computeFillin F univ fp fi color b out₀ = some (b', i') ∧
      (NoFinds F → b' = b ∧ i' = InfC.clear) := by
  obtain ⟨b', i', heq, _, _, _⟩ := computeFillin_spec F univ hS fp fi color b out₀
  refine ⟨b', i', heq, fun hN => ?_⟩
  have h2 := noFinds_computeFillin F univ hN fp fi color b out₀
  rw [heq] at h2
  simp only [Option.some.injEq, Prod.mk.injEq] at h2
  exact ⟨h2.1, h2.2⟩

theorem c9_compute_fillin_never_fails_witness :
    ∃ b' i', computeFillin zeroFinders 7 false false true ⟨1, 2, 0, 0⟩
        InfC.clear = some (b', i') ∧
      (NoFinds zeroFinders → b' = ⟨1, 2, 0, 0⟩ ∧ i' = InfC.clear) :=
  c9_compute_fillin_never_fails zeroFinders 7 false false true ⟨1, 2, 0, 0⟩
    InfC.clear (zeroFinders_sound 7)

/-- C3: after `ComputeInferiorCells`, for sound finders, the dead set is
disjoint from each captured set, the two captured sets are disjoint from
each other, and every vulnerable, reversible or dominated cell is empty
on the resulting board. -/
theorem c3_inferior_cells_invariants (F : Finders) (univ : Nat)
    (fp fi fb color : Bool) (b : SB) (out₀ : InfC) (hS : Sound univ F) :
    ∃ b' i', computeInferiorCells F univ fp fi fb color b out₀ =
        some (b', i') ∧
      i'.dead &&& i'.capB = 0 ∧ i'.dead &&& i'.capW = 0 ∧
      i'.capB &&& i'.capW = 0 ∧
      i'.vuln &&& getEmpty univ b' = i'.vuln ∧
      i'.reversible &&& getEmpty univ b' = i'.reversible ∧
      i'.dominated &&& getEmpty univ b' = i'.dominated := by
  obtain ⟨b1, i1, hcf, hI1, hh1, hle1⟩ :=
    computeFillin_spec F univ hS fp fi color b out₀
  set i2t := i1.addReversible
    (F.findReversible color b1 (mdiff (getEmpty univ b1) i1.vuln)) with hi2t
  set i3t := i2t.addDominated (F.findDominated color b1
    (mdiff (mdiff (getEmpty univ b1) i2t.vuln) i2t.reversible)) with hi3t
  have hI2 : Invar univ b1 i2t :=
    invar_addReversible univ b1 i1 _ hI1
      (subTrans (hS.findReversible_sub _ _ _) (mdiff_sub _ _))
  have hI3 : Invar univ b1 i3t :=
    invar_addDominated univ b1 i2t _ hI2
      (subTrans (hS.findDominated_sub _ _ _)
        (subTrans (mdiff_sub _ _) (mdiff_sub _ _)))
  have hstep : computeInferiorCells F univ fp fi fb color b out₀ =
      (match computeFillin F univ fp fi color b out₀ with
      | none => none
      | some (b1, i1) =>
        let i2 := i1.addReversible
          (F.findReversible color b1 (mdiff (getEmpty univ b1) i1.vuln))
        let i3 := i2.addDominated (F.findDominated color b1
          (mdiff (mdiff (getEmpty univ b1) i2.vuln) i2.reversible))
        let i4 := if fb then i3.addVulnerable (F.backupVuln color b1 i3)
          else i3
        some (b1, i4)) := rfl
  rw [hstep, hcf]
  dsimp only
  cases fb
  · rw [if_neg (by simp)]
    refine ⟨b1, _, rfl, ?_, ?_, ?_, ?_, ?_, ?_⟩
    · exact hI3.dead_capB
    · exact hI3.dead_capW
    · exact hI3.capB_capW
    · exact hI3.vuln_empty
    · exact hI3.rev_empty
    · exact hI3.dom_empty
  · rw [if_pos rfl]
    have hI4 : Invar univ b1 (i3t.addVulnerable (F.backupVuln color b1 i3t)) :=
      invar_addVulnerable univ b1 i3t (F.backupVuln color b1 i3t) hI3
        (hS.backupVuln_sub color b1 i3t)
    refine ⟨b1, _, rfl, ?_, ?_, ?_, ?_, ?_, ?_⟩
    · exact hI4.dead_capB
    · exact hI4.dead_capW
    · exact hI4.capB_capW
    · exact hI4.vuln_empty
    · exact hI4.rev_empty
    · exact hI4.dom_empty

theorem c3_inferior_cells_invariants_witness :
    ∃ b' i', computeInferiorCells zeroFinders 7 false false false true
        ⟨1, 2, 0, 0⟩ InfC.clear = some (b', i') ∧
      i'.dead &&& i'.capB = 0 ∧ i'.dead &&& i'.capW = 0 ∧
      i'.capB &&& i'.capW = 0 ∧
      i'.vuln &&& getEmpty 7 b' = i'.vuln ∧
      i'.reversible &&& getEmpty 7 b' = i'.reversible ∧
      i'.dominated &&& getEmpty 7 b' = i'.dominated :=
  c3_inferior_cells_invariants zeroFinders 7 false false false true
    ⟨1, 2, 0, 0⟩ InfC.clear (zeroFinders_sound 7)

/-- C10: `ComputeInferiorCells` leaves the StoneBoard Zobrist hash
unchanged: every fillin mutation goes through `addColor`, which does not
touch the hash, and the backup-opponent-dead pass reads the board
without changing it. -/
theorem c10_hash_unchanged (F : Finders) (univ : Nat)
    (fp fi fb color : Bool) (b : SB) (out₀ : InfC) (hS : Sound univ F) :
    ∃ b' i', computeInferiorCells F univ fp fi fb color b out₀ =
        some (b', i') ∧ b'.hash = b.hash := by
  obtain ⟨b1, i1, hcf, hI1, hh1, hle1⟩ :=
    computeFillin_spec F univ hS fp fi color b out₀
  have hstep : computeInferiorCells F univ fp fi fb color b out₀ =
      (match computeFillin F univ fp fi color b out₀ with
      | none => none
      | some (b1, i1) =>
        let i2 := i1.addReversible
          (F.findReversible color b1 (mdiff (getEmpty univ b1) i1.vuln))
        let i3 := i2.addDominated (F.findDominated color b1
          (mdiff (mdiff (getEmpty univ b1) i2.vuln) i2.reversible))
        let i4 := if fb then i3.addVulnerable (F.backupVuln color b1 i3)
          else i3
        some (b1, i4)) := rfl
  rw [hstep, hcf]
  dsimp only
  refine ⟨b1, _, rfl, ?_⟩
  exact hh1

theorem c10_hash_unchanged_witness :
    ∃ b' i', computeInferiorCells zeroFinders 7 false false false true
        ⟨1, 2, 0, 5⟩ InfC.clear = some (b', i') ∧
      b'.hash = (SB.mk 1 2 0 5).hash :=
  c10_hash_unchanged zeroFinders 7 false false false true ⟨1, 2, 0, 5⟩
    InfC.clear (zeroFinders_sound 7)

end Benzene
